import Mathlib

/-!
Shallow embedding of the minikin line breaker (libs/minikin/LineBreaker.cpp).

Widths, penalties and scores (C `float`/`double`) are modelled as rationals;
indices and counts (`size_t`/`int`) as naturals, with explicit sentinels and
wraparound where the C code relies on them.  Types that live in headers
outside the repository snapshot (MinikinExtent, HyphenationType, HyphenEdit)
are modelled from the spec, as noted on each definition.
-/

namespace Minikin

/-- Modelled from the spec: the hyphenation classification enum
(`HyphenationType` is declared in a header outside the snapshot).  The spec
names `DONT_BREAK`, `BREAK_AND_INSERT_HYPHEN`,
`BREAK_AND_INSERT_ARMENIAN_HYPHEN`, …, `BREAK_AND_DONT_INSERT_HYPHEN`. -/
inductive HyphenationType where
  | dontBreak
  | breakAndInsertHyphen
  | breakAndInsertArmenianHyphen
  | breakAndDontInsertHyphen
  deriving DecidableEq

/-- Modelled from the spec: vertical extent triple `{ascent, descent, lineGap}`
(`MinikinExtent` is declared in a header outside the snapshot). -/
structure MinikinExtent where
  ascent : ℚ
  descent : ℚ
  lineGap : ℚ
  deriving DecidableEq

/-- Modelled from the spec: `extendBy` combines extents componentwise
(the spec calls it a monoid with identity `{0,0,0}` taking maxima). -/
def MinikinExtent.extendBy (a b : MinikinExtent) : MinikinExtent :=
  ⟨max a.ascent b.ascent, max a.descent b.descent, max a.lineGap b.lineGap⟩

def extZero : MinikinExtent := ⟨0, 0, 0⟩

/-- Modelled from the spec: `editForThisLine(h)` produces the hyphen-edit bit
flags attached to the line ending at a break (`HyphenEdit` lives outside the
snapshot); `DONT_BREAK` maps to `NO_EDIT = 0`, the distinct edits are modelled
by an injective low-bit encoding. -/
def editForThisLine : HyphenationType → ℕ
  | .dontBreak => 0
  | .breakAndInsertHyphen => 1
  | .breakAndInsertArmenianHyphen => 2
  | .breakAndDontInsertHyphen => 3

/-- Modelled from the spec: `editForNextLine(h)` produces independent bit flags
for the line starting after the break, modelled in bits disjoint from
`editForThisLine`. -/
def editForNextLine : HyphenationType → ℕ
  | .dontBreak => 0
  | .breakAndInsertHyphen => 4
  | .breakAndInsertArmenianHyphen => 8
  | .breakAndDontInsertHyphen => 12

/-- Break strategies (`kBreakStrategy_*`). -/
inductive BreakStrategy where
  | greedy
  | highQuality
  | balanced
  deriving DecidableEq

/-- Hyphenation frequencies (`kHyphenationFrequency_*`). -/
inductive HyphenationFrequency where
  | freqNone
  | freqNormal
  | freqFull
  deriving DecidableEq

/-- Source: `constexpr uint16_t CHAR_TAB = 0x0009`. -/
def CHAR_TAB : ℕ := 0x0009

/-- Source: `constexpr uint16_t CHAR_NBSP = 0x00A0`. -/
def CHAR_NBSP : ℕ := 0x00A0

/-- Source: `SCORE_INFTY = std::numeric_limits<float>::max()`; the largest
finite binary32 value, `(2^24 - 1) * 2^104`, written as a literal. -/
def SCORE_INFTY : ℚ := 340282346638528859811704183484516925440

/-- Source: `SCORE_OVERFULL = 1e12f`. -/
def SCORE_OVERFULL : ℚ := 1000000000000

/-- Source: `SCORE_DESPERATE = 1e10f`. -/
def SCORE_DESPERATE : ℚ := 10000000000

/-- Source: `LAST_LINE_PENALTY_MULTIPLIER = 4.0f`. -/
def LAST_LINE_PENALTY_MULTIPLIER : ℚ := 4

/-- Source: `LINE_PENALTY_MULTIPLIER = 2.0f`. -/
def LINE_PENALTY_MULTIPLIER : ℚ := 2

/-- Source: `SHRINK_PENALTY_MULTIPLIER = 4.0f`. -/
def SHRINK_PENALTY_MULTIPLIER : ℚ := 4

/-- Source: `LONGEST_HYPHENATED_WORD = 45`. -/
def LONGEST_HYPHENATED_WORD : ℕ := 45

/-- Source: `MAX_TEXT_BUF_RETAIN = 32678`. -/
def MAX_TEXT_BUF_RETAIN : ℕ := 32678

/-- Source: `SHRINKABILITY = 1.0 / 3.0`. -/
def SHRINKABILITY : ℚ := 1 / 3

/-- Value of `INT_MAX`, the sentinel stored in `mFirstTabIndex`. -/
def INT_MAX : ℕ := 2147483647

/-- Source `isLineEndSpace` (LineBreaker.cpp lines 128-131): whether a code
unit is a space that disappears at end of line. -/
def isLineEndSpace (c : ℕ) : Bool :=
  decide (c = 10 ∨ c = 32 ∨ c = 0x1680 ∨
    (0x2000 ≤ c ∧ c ≤ 0x200A ∧ c ≠ 0x2007) ∨ c = 0x205F ∨ c = 0x3000)

/-- Source `Candidate` struct (declared in the LineBreaker header, with the
fields the spec documents; `score` and `prev` are the optimal-mode fields). -/
structure Candidate where
  offset : ℕ
  preBreak : ℚ
  postBreak : ℚ
  preSpaceCount : ℕ
  postSpaceCount : ℕ
  extent : MinikinExtent
  penalty : ℚ
  hyphenType : HyphenationType
  score : ℚ
  prev : ℕ
  deriving DecidableEq

/-- Default candidate used to totalise list indexing (out-of-range access in
the C++ is undefined; our theorems only index in range). -/
def cand0 : Candidate := ⟨0, 0, 0, 0, 0, extZero, 0, .dontBreak, 0, 0⟩

/-- Output flags for one break: the `kTab_Shift` bit and the hyphen-edit low
bits, modelled as separate fields of the packed `int`. -/
structure LineFlags where
  tab : Bool
  hyphen : ℕ
  deriving DecidableEq

/-- Explicit index range `[s, s+n)`, used to embed C `for` loops. -/
def idxRange : ℕ → ℕ → List ℕ
  | _, 0 => []
  | s, n + 1 => s :: idxRange (s + 1) n

theorem mem_idxRange {s n j : ℕ} : j ∈ idxRange s n ↔ s ≤ j ∧ j < s + n := by
  induction n generalizing s with
  | zero => simp [idxRange]
  | succ n ih =>
    simp only [idxRange, List.mem_cons, ih]
    omega

theorem idxRange_append (s m n : ℕ) :
    idxRange s (m + n) = idxRange s m ++ idxRange (s + m) n := by
  induction m generalizing s with
  | zero => simp [idxRange]
  | succ m ih =>
    simp only [Nat.succ_add, idxRange, List.cons_append, List.cons.injEq, true_and]
    have := ih (s + 1)
    rw [this]
    ring_nf

/-- State of one `LineBreaker` object: the fields of the class that the
embedded methods read or write.  The line-width delegate and tab stops are
modelled by the functions they would compute; `lineWidthDelegate = none`
models a released (`reset()`) delegate. -/
structure LB where
  textBuf : List ℕ
  charWidths : List ℚ
  charExtents : List MinikinExtent
  candidates : List Candidate
  breaks : List ℕ
  widths : List ℚ
  ascents : List ℚ
  descents : List ℚ
  flags : List LineFlags
  lastBreak : ℕ
  bestBreak : ℕ
  bestScore : ℚ
  preBreak : ℚ
  lastHyphenation : ℕ
  firstTabIndex : ℕ
  spaceCount : ℕ
  width : ℚ
  strategy : BreakStrategy
  hyphenationFrequency : HyphenationFrequency
  linePenalty : ℚ
  justified : Bool
  lineWidthDelegate : Option (ℕ → ℚ)
  hyphBuf : List HyphenationType

/-- Source `currentLineWidth` (lines 439-441): ask the delegate for the width
of the line currently being built (= number of breaks emitted so far). -/
def currentLineWidth (st : LB) : ℚ :=
  (st.lineWidthDelegate.getD fun _ => 0) st.breaks.length

/-- Source `computeMaxExtent` (lines 340-346): extent of `candidates[end]`
extended by the extents of candidates `start ≤ j < end`. -/
def computeMaxExtent (cands : List Candidate) (start stop : ℕ) : MinikinExtent :=
  (idxRange start (stop - start)).foldl
    (fun res j => res.extendBy (cands.getD j cand0).extent)
    (cands.getD stop cand0).extent

/-- Source `pushBreak` (lines 408-417): append one line to the five output
lists; the tab bit is `mFirstTabIndex < mBreaks.back()` and `mFirstTabIndex`
is reset to `INT_MAX`. -/
def pushBreak (offset : ℕ) (width : ℚ) (extent : MinikinExtent)
    (hyphenEdit : ℕ) (st : LB) : LB :=
  { st with
    breaks := st.breaks ++ [offset]
    widths := st.widths ++ [width]
    ascents := st.ascents ++ [extent.ascent]
    descents := st.descents ++ [extent.descent]
    flags := st.flags ++ [⟨decide (st.firstTabIndex < offset), hyphenEdit⟩]
    firstTabIndex := INT_MAX }

/-- Source `pushGreedyBreak` (lines 349-361): commit the break at
`mBestBreak`, then reset `mBestScore` and advance `mLastBreak`, `mPreBreak`,
`mLastHyphenation`. -/
def pushGreedyBreak (st : LB) : LB :=
  let bestCandidate := st.candidates.getD st.bestBreak cand0
  let st' := pushBreak bestCandidate.offset (bestCandidate.postBreak - st.preBreak)
    (computeMaxExtent st.candidates (st.lastBreak + 1) st.bestBreak)
    (Nat.lor st.lastHyphenation (editForThisLine bestCandidate.hyphenType)) st
  { st' with
    bestScore := SCORE_INFTY
    lastBreak := st.bestBreak
    preBreak := bestCandidate.preBreak
    lastHyphenation := editForNextLine bestCandidate.hyphenType }

/-- Source `addCandidate` rescan loop (lines 388-394): scan
`mLastBreak < i < candIndex` keeping the last candidate whose penalty is
`≤` the running best score. -/
def greedyRescan (cands : List Candidate) (lastBreak candIndex : ℕ)
    (bestBreak : ℕ) (bestScore : ℚ) : ℕ × ℚ :=
  (idxRange (lastBreak + 1) (candIndex - (lastBreak + 1))).foldl
    (fun bb i =>
      if (cands.getD i cand0).penalty ≤ bb.2
      then (i, (cands.getD i cand0).penalty) else bb)
    (bestBreak, bestScore)

/-- Source `addCandidate` while-loop (lines 380-400), with explicit fuel.
The C loop terminates because `mLastBreak` strictly increases towards
`candIndex`; `addCandidate` passes enough fuel for every reachable state. -/
def addCandidateLoop (candIndex : ℕ) (cand : Candidate) :
    ℕ → LB → LB
  | 0, st => st
  | fuel + 1, st =>
    if st.lastBreak ≠ candIndex ∧ cand.postBreak - st.preBreak > currentLineWidth st then
      let bb := greedyRescan st.candidates st.lastBreak candIndex st.bestBreak st.bestScore
      let st' := { st with bestBreak := bb.1, bestScore := bb.2 }
      let st'' := if st'.bestBreak = st'.lastBreak
        then { st' with bestBreak := candIndex } else st'
      addCandidateLoop candIndex cand fuel (pushGreedyBreak st'')
    else st

/-- Source `addCandidate` (lines 364-406): append the candidate, commit a
greedy break on overflow, rescan while the remainder still overflows, then
update the running best break. -/
def addCandidate (cand : Candidate) (st : LB) : LB :=
  let candIndex := st.candidates.length
  let st1 := { st with candidates := st.candidates ++ [cand] }
  let st2 :=
    if cand.postBreak - st1.preBreak > currentLineWidth st1 then
      pushGreedyBreak (if st1.bestBreak = st1.lastBreak
        then { st1 with bestBreak := candIndex } else st1)
    else st1
  let st3 := addCandidateLoop candIndex cand (candIndex + 1) st2
  if cand.penalty ≤ st3.bestScore
  then { st3 with bestBreak := candIndex, bestScore := cand.penalty } else st3

/-- Source `addWordBreak` desperate-break loop (lines 301-322): positions
`i` from just past the last candidate's offset up to `offset`, emitting a
candidate at every position of positive width, with the running width frozen
as both `preBreak` and `postBreak`.  The first argument counts the remaining
iterations (`offset - i`), making the recursion structural. -/
def desperateLoop (postSpaceCount : ℕ) : ℕ → ℕ → ℚ → LB → LB
  | 0, _, _, st => st
  | fuel + 1, i, width, st =>
    let w := st.charWidths.getD i 0
    if 0 < w then
      desperateLoop postSpaceCount fuel (i + 1) (width + w)
        (addCandidate
          ⟨i, width, width, postSpaceCount, postSpaceCount,
            st.charExtents.getD i extZero, SCORE_DESPERATE,
            .breakAndDontInsertHyphen, 0, 0⟩ st)
    else desperateLoop postSpaceCount fuel (i + 1) width st

/-- Source `addWordBreak` (lines 292-337): insert desperate breaks when the
prepared candidate overflows the current line from the last candidate, then
append the prepared candidate. -/
def addWordBreak (offset : ℕ) (preBreak postBreak : ℚ)
    (preSpaceCount postSpaceCount : ℕ) (extent : MinikinExtent)
    (penalty : ℚ) (hyph : HyphenationType) (st : LB) : LB :=
  let back := st.candidates.getD (st.candidates.length - 1) cand0
  let st1 :=
    if postBreak - back.preBreak > currentLineWidth st then
      desperateLoop postSpaceCount (offset - (back.offset + 1)) (back.offset + 1)
        (back.preBreak + st.charWidths.getD back.offset 0) st
    else st
  addCandidate
    ⟨offset, preBreak, postBreak, preSpaceCount, postSpaceCount,
      extent, penalty, hyph, 0, 0⟩ st1

/-- Source `computeBreaksGreedy` (lines 443-455): emit the final line unless
the last candidate was already committed. -/
def computeBreaksGreedy (st : LB) : LB :=
  let nCand := st.candidates.length
  if nCand = 1 ∨ st.lastBreak ≠ nCand - 1 then
    pushBreak (st.candidates.getD (nCand - 1) cand0).offset
      ((st.candidates.getD (nCand - 1) cand0).postBreak - st.preBreak)
      (computeMaxExtent st.candidates (st.lastBreak + 1) (nCand - 1))
      st.lastHyphenation st
  else st

/-- Locals of `addStyleRun` that snapshot the state just after the last
non-line-end-whitespace code unit (`extent`, `postBreak`, `postSpaceCount`,
`afterWord`, lines 205-210). -/
structure RunLocals where
  extent : MinikinExtent
  postBreak : ℚ
  postSpaceCount : ℕ
  afterWord : ℕ
  deriving DecidableEq

/-- Source `addStyleRun` per-code-unit body (lines 212-229), shared by the
paint and no-paint paths: tab handling, word-space counting, width and extent
accumulation, and the `postBreak`/`postSpaceCount`/`afterWord` snapshot.
`isWS` models the external `isWordSpace`, `nextTab` the tab-stops object. -/
def styleRunCharStep (isWS : ℕ → Bool) (nextTab : ℚ → ℚ) (i : ℕ)
    (st : LB) (loc : RunLocals) : LB × RunLocals :=
  let c := st.textBuf.getD i 0
  if c = CHAR_TAB then
    ({ st with
        width := st.preBreak + nextTab (st.width - st.preBreak)
        firstTabIndex := if st.firstTabIndex = INT_MAX then i else st.firstTabIndex
        strategy := .greedy }, loc)
  else
    let sc := if isWS c then st.spaceCount + 1 else st.spaceCount
    let w := st.width + st.charWidths.getD i 0
    let ext := loc.extent.extendBy (st.charExtents.getD i extZero)
    let st' := { st with spaceCount := sc, width := w }
    if isLineEndSpace c then
      (st', { loc with extent := ext })
    else
      (st', ⟨ext, w, sc, i + 1⟩)

/-- Source `addStyleRun` loop for the no-paint path (lines 204-285 with
`paint == nullptr`): hyphenation is skipped, the word-break penalty is
`hyphenPenalty * breakBadness = 0`, and a boundary strictly inside a
replacement span is suppressed unless its code unit has positive width.
`bnds` is the stream of word-breaker boundaries (successive `next()`
results); `stop` is the run's `end`. -/
def styleRunLoop (isWS : ℕ → Bool) (nextTab : ℚ → ℚ) (stop : ℕ) :
    ℕ → ℕ → LB → RunLocals → List ℕ → LB × RunLocals × List ℕ
  | 0, _, st, loc, bnds => (st, loc, bnds)
  | fuel + 1, i, st, loc, bnds =>
    let p := styleRunCharStep isWS nextTab i st loc
    let st := p.1
    let loc := p.2
    if i + 1 = bnds.headD 0 then
      let current := bnds.headD 0
      let st' :=
        if current = stop ∨ 0 < st.charWidths.getD current 0 then
          addWordBreak current st.width loc.postBreak st.spaceCount
            loc.postSpaceCount loc.extent 0 .dontBreak st
        else st
      styleRunLoop isWS nextTab stop fuel (i + 1) st'
        { loc with extent := extZero } bnds.tail
    else
      styleRunLoop isWS nextTab stop fuel (i + 1) st loc bnds

/-- Source `addStyleRun` for the no-paint path: initialise the locals from the
running paragraph state and run the loop over `[start, stop)` (the first
argument of `styleRunLoop` counts the `stop - start` iterations). -/
def addStyleRunNull (isWS : ℕ → Bool) (nextTab : ℚ → ℚ)
    (start stop : ℕ) (st : LB) (bnds : List ℕ) : LB × RunLocals × List ℕ :=
  styleRunLoop isWS nextTab stop (stop - start) start st
    ⟨extZero, st.width, st.spaceCount, start⟩ bnds

/-- Source `setText` candidate/state reset (lines 99-122): sentinel candidate
at offset 0, cleared outputs and greedy state.  The word segmenter itself is
external; its first `next()` result is the head of the boundary stream. -/
def setTextState (textBuf : List ℕ) (charWidths : List ℚ)
    (charExtents : List MinikinExtent) (strategy : BreakStrategy)
    (justified : Bool) (linePenalty : ℚ) (lw : ℕ → ℚ) : LB :=
  { textBuf := textBuf
    charWidths := charWidths
    charExtents := charExtents
    candidates := [⟨0, 0, 0, 0, 0, extZero, 0, .dontBreak, 0, 0⟩]
    breaks := []
    widths := []
    ascents := []
    descents := []
    flags := []
    lastBreak := 0
    bestBreak := 0
    bestScore := SCORE_INFTY
    preBreak := 0
    lastHyphenation := 0
    firstTabIndex := INT_MAX
    spaceCount := 0
    width := 0
    strategy := strategy
    hyphenationFrequency := .freqNormal
    linePenalty := linePenalty
    justified := justified
    lineWidthDelegate := some lw
    hyphBuf := [] }

/-- Source `getSpaceWidth` (lines 430-437): width of the first word space in
the text, 0 if none. -/
def getSpaceWidth (isWS : ℕ → Bool) (st : LB) : ℚ :=
  match st.textBuf.findIdx? (fun c => isWS c) with
  | some i => st.charWidths.getD i 0
  | none => 0

/-- Source `finishBreaksOptimal` backtrace (lines 466-480): indices visited
following `prev` links from `nCand - 1` down, stopping at 0.  The fuel equals
`nCand`; the DP guarantees `prev i < i`, so it always suffices. -/
def backtrace (cands : List Candidate) : ℕ → ℕ → List ℕ
  | 0, _ => []
  | fuel + 1, i =>
    if i > 0 then i :: backtrace cands fuel (cands.getD i cand0).prev
    else []

/-- Source `finishBreaksOptimal` (lines 458-484): clear the greedy output,
push one entry per backtraced line, then reverse `mBreaks`, `mWidths` and
`mFlags` — the C++ does not reverse `mAscents` and `mDescents`. -/
def finishBreaksOptimal (st : LB) : LB :=
  let nCand := st.candidates.length
  let chain := backtrace st.candidates nCand (nCand - 1)
  let breaks := chain.map fun i => (st.candidates.getD i cand0).offset
  let widths := chain.map fun i =>
    (st.candidates.getD i cand0).postBreak -
      (st.candidates.getD (st.candidates.getD i cand0).prev cand0).preBreak
  let ascents := chain.map fun i =>
    (computeMaxExtent st.candidates ((st.candidates.getD i cand0).prev + 1) i).ascent
  let descents := chain.map fun i =>
    (computeMaxExtent st.candidates ((st.candidates.getD i cand0).prev + 1) i).descent
  let flags : List LineFlags := chain.map fun i =>
    let prev := (st.candidates.getD i cand0).prev
    ⟨false,
      Nat.lor (editForThisLine (st.candidates.getD i cand0).hyphenType)
        (if prev > 0 then editForNextLine (st.candidates.getD prev cand0).hyphenType
         else 0)⟩
  { st with
    breaks := breaks.reverse
    widths := widths.reverse
    ascents := ascents
    descents := descents
    flags := flags.reverse }

/-- Locals of the `computeBreaksOptimal` inner loop over predecessors `j`
(lines 498-507). -/
structure OptInner where
  best : ℚ
  bestPrev : ℕ
  bestHope : ℚ
  active : ℕ
  width : ℚ
  lineNumberLast : ℕ
  leftEdge : ℚ
  deriving DecidableEq

/-- The `delta`-dependent width score of `computeBreaksOptimal`
(lines 528-545), returning `(widthScore, additionalPenalty)`.  The
`size_t` subtraction `postSpaceCount - preSpaceCount` wraps modulo `2^64`
in C; that wrap is made explicit. -/
def optWidthScore (justified : Bool) (strategy : BreakStrategy) (maxShrink : ℚ)
    (atEnd : Bool) (delta : ℚ) (penaltyJ : ℚ)
    (postSpaceI preSpaceJ : ℕ) : ℚ × ℚ :=
  if (atEnd ∨ justified = false) ∧ delta < 0 then
    (SCORE_OVERFULL, 0)
  else if atEnd ∧ strategy ≠ .balanced then
    (0, LAST_LINE_PENALTY_MULTIPLIER * penaltyJ)
  else
    if delta < 0 then
      if -delta < maxShrink * (((postSpaceI + 2 ^ 64 - preSpaceJ) % 2 ^ 64 : ℕ) : ℚ)
      then (delta * delta * SHRINK_PENALTY_MULTIPLIER, 0)
      else (SCORE_OVERFULL, 0)
    else (delta * delta, 0)

/-- Source `computeBreaksOptimal` inner-loop body for one predecessor `j`
(lines 508-557), pruning included: the lazy width recompute on a line-number
change, the `bestHope` skip, the `active` advance on `delta < 0`, and the
`score ≤ best` update. -/
def optBody (lw : ℕ → ℚ) (justified : Bool) (strategy : BreakStrategy)
    (maxShrink : ℚ) (cands : List Candidate) (lineNumbers : List ℕ)
    (atEnd : Bool) (postI : ℚ) (postSpaceI : ℕ) (s : OptInner) (j : ℕ) :
    OptInner :=
  let lineNumber := lineNumbers.getD j 0
  let s :=
    if lineNumber ≠ s.lineNumberLast then
      let widthNew := lw lineNumber
      let s :=
        if widthNew ≠ s.width then
          { s with leftEdge := postI - s.width, bestHope := 0, width := widthNew }
        else s
      { s with lineNumberLast := lineNumber }
    else s
  let cj := cands.getD j cand0
  if cj.score + s.bestHope ≥ s.best then s
  else
    let delta := cj.preBreak - s.leftEdge
    let ws := optWidthScore justified strategy maxShrink atEnd delta cj.penalty
      postSpaceI cj.preSpaceCount
    let s := if delta < 0 then { s with active := j + 1 }
             else { s with bestHope := ws.1 }
    let score := cj.score + ws.1 + ws.2
    if score ≤ s.best then { s with best := score, bestPrev := j } else s

/-- Source `computeBreaksOptimal` body for one line-end candidate `i`
(lines 496-561): initialise the inner locals from `active`, fold the inner
loop over `j ∈ [active, i)`, then commit `score`, `prev` and the line
number. -/
def optOuterStep (lw : ℕ → ℚ) (justified : Bool) (strategy : BreakStrategy)
    (maxShrink : ℚ) (linePenalty : ℚ) (nCand : ℕ)
    (acc : List Candidate × List ℕ × ℕ) (i : ℕ) :
    List Candidate × List ℕ × ℕ :=
  let cands := acc.1
  let lineNumbers := acc.2.1
  let active := acc.2.2
  let atEnd := decide (i = nCand - 1)
  let lineNumberLast := lineNumbers.getD active 0
  let width := lw lineNumberLast
  let ci := cands.getD i cand0
  let leftEdge := ci.postBreak - width
  let s0 : OptInner := ⟨SCORE_INFTY, 0, 0, active, width, lineNumberLast, leftEdge⟩
  let s := (idxRange active (i - active)).foldl
    (optBody lw justified strategy maxShrink cands lineNumbers atEnd
      ci.postBreak ci.postSpaceCount) s0
  let cands' := cands.set i
    { ci with score := s.best + ci.penalty + linePenalty, prev := s.bestPrev }
  (cands', lineNumbers ++ [lineNumbers.getD s.bestPrev 0 + 1], s.active)

/-- Source `computeBreaksOptimal` dynamic program (lines 486-565): fold the
per-candidate step over `i ∈ [1, nCand)` starting from `lineNumbers = [0]`
and `active = 0`, producing candidates with `score` and `prev` filled in. -/
def optimalDP (lw : ℕ → ℚ) (justified : Bool) (strategy : BreakStrategy)
    (maxShrink : ℚ) (linePenalty : ℚ) (cands : List Candidate) :
    List Candidate :=
  let nCand := cands.length
  ((idxRange 1 (nCand - 1)).foldl
    (optOuterStep lw justified strategy maxShrink linePenalty nCand)
    (cands, [0], 0)).1

/-- The exhaustive inner-loop body: identical to `optBody` except that the
`bestHope` skip and the `active` advance are removed, so every predecessor
is evaluated. -/
def exhBody (lw : ℕ → ℚ) (justified : Bool) (strategy : BreakStrategy)
    (maxShrink : ℚ) (cands : List Candidate) (lineNumbers : List ℕ)
    (atEnd : Bool) (postI : ℚ) (postSpaceI : ℕ) (s : OptInner) (j : ℕ) :
    OptInner :=
  let lineNumber := lineNumbers.getD j 0
  let s :=
    if lineNumber ≠ s.lineNumberLast then
      let widthNew := lw lineNumber
      let s :=
        if widthNew ≠ s.width then
          { s with leftEdge := postI - s.width, bestHope := 0, width := widthNew }
        else s
      { s with lineNumberLast := lineNumber }
    else s
  let cj := cands.getD j cand0
  let delta := cj.preBreak - s.leftEdge
  let ws := optWidthScore justified strategy maxShrink atEnd delta cj.penalty
    postSpaceI cj.preSpaceCount
  let s := if delta < 0 then s else { s with bestHope := ws.1 }
  let score := cj.score + ws.1 + ws.2
  if score ≤ s.best then { s with best := score, bestPrev := j } else s

/-- The exhaustive per-candidate step: every predecessor `0 ≤ j < i` is
evaluated (`active` stays 0). -/
def exhOuterStep (lw : ℕ → ℚ) (justified : Bool) (strategy : BreakStrategy)
    (maxShrink : ℚ) (linePenalty : ℚ) (nCand : ℕ)
    (acc : List Candidate × List ℕ) (i : ℕ) :
    List Candidate × List ℕ :=
  let cands := acc.1
  let lineNumbers := acc.2
  let atEnd := decide (i = nCand - 1)
  let lineNumberLast := lineNumbers.getD 0 0
  let width := lw lineNumberLast
  let ci := cands.getD i cand0
  let leftEdge := ci.postBreak - width
  let s0 : OptInner := ⟨SCORE_INFTY, 0, 0, 0, width, lineNumberLast, leftEdge⟩
  let s := (idxRange 0 i).foldl
    (exhBody lw justified strategy maxShrink cands lineNumbers atEnd
      ci.postBreak ci.postSpaceCount) s0
  let cands' := cands.set i
    { ci with score := s.best + ci.penalty + linePenalty, prev := s.bestPrev }
  (cands', lineNumbers ++ [lineNumbers.getD s.bestPrev 0 + 1])

/-- The exhaustive dynamic program: the claim's unpruned baseline. -/
def exhaustiveDP (lw : ℕ → ℚ) (justified : Bool) (strategy : BreakStrategy)
    (maxShrink : ℚ) (linePenalty : ℚ) (cands : List Candidate) :
    List Candidate :=
  let nCand := cands.length
  ((idxRange 1 (nCand - 1)).foldl
    (exhOuterStep lw justified strategy maxShrink linePenalty nCand)
    (cands, [0])).1

/-- Source `computeBreaksOptimal` (lines 486-567) on the engine state:
compute `maxShrink`, run the dynamic program, then backtrace. -/
def computeBreaksOptimal (isWS : ℕ → Bool) (st : LB) : LB :=
  let lw := st.lineWidthDelegate.getD fun _ => 0
  let maxShrink := if st.justified then SHRINKABILITY * getSpaceWidth isWS st else 0
  finishBreaksOptimal
    { st with candidates :=
        optimalDP lw st.justified st.strategy maxShrink st.linePenalty st.candidates }

/-- Source `computeBreaks` (lines 569-576): dispatch on the strategy. -/
def computeBreaks (isWS : ℕ → Bool) (st : LB) : LB :=
  if st.strategy = .greedy then computeBreaksGreedy st
  else computeBreaksOptimal isWS st

/-- Source `finish` (lines 578-608): clear the per-paragraph buffers, shrink
the text-dependent buffers past the retain threshold (capacity changes are
not observable in the model, but the conditional clears are), and reset the
configuration to defaults, releasing the line-width delegate. -/
def finish (st : LB) : LB :=
  let st1 := { st with
    width := 0
    candidates := []
    breaks := []
    widths := []
    ascents := []
    descents := []
    flags := [] }
  let st2 :=
    if MAX_TEXT_BUF_RETAIN < st1.textBuf.length then
      { st1 with textBuf := [], charWidths := [], charExtents := [], hyphBuf := [] }
    else st1
  { st2 with
    strategy := .greedy
    hyphenationFrequency := .freqNormal
    linePenalty := 0
    justified := false
    lineWidthDelegate := none }

/-- Source `hyphenate` loop (lines 135-170), indexed form: `i` scans
`0 ≤ i ≤ len`; at `i = len` or at an NBSP the pending word (if any) is
classified — by the hyphenator `hy` when its length is at most
`LONGEST_HYPHENATED_WORD`, by `DONT_BREAK` entries otherwise — and each NBSP
contributes one `DONT_BREAK`. -/
def hyphenateLoop (hy : List ℕ → List HyphenationType) (str : List ℕ) :
    ℕ → ℕ → Bool → ℕ → List HyphenationType
  | 0, _, _, _ => []
  | fuel + 1, i, inWord, wordStart =>
    if i < str.length then
      if str.getD i 0 = CHAR_NBSP then
        let wordPart : List HyphenationType :=
          if inWord then
            let wordLen := i - wordStart
            if wordLen ≤ LONGEST_HYPHENATED_WORD then
              hy ((str.drop wordStart).take wordLen)
            else List.replicate wordLen .dontBreak
          else []
        wordPart ++ .dontBreak :: hyphenateLoop hy str fuel (i + 1) false wordStart
      else if inWord then hyphenateLoop hy str fuel (i + 1) true wordStart
      else hyphenateLoop hy str fuel (i + 1) true i
    else
      if inWord then
        let wordLen := str.length - wordStart
        if wordLen ≤ LONGEST_HYPHENATED_WORD then
          hy ((str.drop wordStart).take wordLen)
        else List.replicate wordLen .dontBreak
      else []

/-- Source `hyphenate` (lines 135-170) as a function of the word slice (the
loop's first argument counts its `length + 1` iterations). -/
def hyphenate (hy : List ℕ → List HyphenationType) (str : List ℕ) :
    List HyphenationType :=
  hyphenateLoop hy str (str.length + 1) 0 false 0

/-- Classification of one maximal non-NBSP sub-word, following the claim's
words: hyphenator for length at most 45, otherwise all `DONT_BREAK`. -/
def hyphenateWordSpec (hy : List ℕ → List HyphenationType) (w : List ℕ) :
    List HyphenationType :=
  if w.length ≤ LONGEST_HYPHENATED_WORD then hy w
  else List.replicate w.length .dontBreak

/-- The claim's description of the hyphenation buffer builder: partition the
input at NBSPs, classify each maximal non-NBSP sub-word, and emit one
`DONT_BREAK` per NBSP, in source order. -/
def hyphenateSpec (hy : List ℕ → List HyphenationType) :
    List ℕ → List HyphenationType
  | [] => []
  | c :: rest =>
    if hc : c = CHAR_NBSP then .dontBreak :: hyphenateSpec hy rest
    else
      hyphenateWordSpec hy ((c :: rest).takeWhile fun x => x ≠ CHAR_NBSP) ++
        hyphenateSpec hy ((c :: rest).dropWhile fun x => x ≠ CHAR_NBSP)
  termination_by l => l.length
  decreasing_by
  · simp_wf
  · simp_wf
    rw [List.dropWhile_cons_of_pos (by simpa using hc)]
    have : ((rest.dropWhile fun x => !decide (x = CHAR_NBSP))).length ≤ rest.length :=
      (List.dropWhile_sublist _).length_le
    omega

/-- Source `setLocales` name extraction: the segment before the first comma
(`strchr`/`strncpy`, lines 72-76).  Locale names are lists of character
codes; a comma is code 44. -/
def takeToComma (s : List ℕ) : List ℕ := s.takeWhile fun c => c ≠ 44

/-- Source `setLocales` advance past the consumed name and its comma
(line 83). -/
def dropPastComma (s : List ℕ) : List ℕ := (s.dropWhile fun c => c ≠ 44).drop 1

/-- Source `setLocales` loop over all locales except the last (lines 71-85):
returns the first non-bogus name with its index, or the remaining string when
none of the first `numLocales - 1` names is valid.  `isBogus` models
`icu::Locale::createFromName(...).isBogus()`. -/
def setLocalesLoop (isBogus : List ℕ → Bool) (numLocales : ℕ) :
    ℕ → List ℕ → (ℕ × List ℕ) ⊕ List ℕ
  | i, s =>
    if h : i < numLocales - 1 then
      let name := takeToComma s
      if isBogus name then setLocalesLoop isBogus numLocales (i + 1) (dropPastComma s)
      else Sum.inl (i, name)
    else Sum.inr s
  termination_by i _ => numLocales - 1 - i

/-- Result of `setLocales`: the chosen locale (`none` = the root locale), the
chosen hyphenator as an index into the hyphenator vector (`none` = null), and
the locale handed to the word segmenter. -/
structure SetLocalesResult where
  locale : Option (List ℕ)
  hyphenator : Option ℕ
  segmenterLocale : Option (List ℕ)
  deriving DecidableEq

/-- Source `setLocales` (lines 65-97): try every locale but the last, fall
back to the remainder, then to the root locale; finally hand the chosen
locale to the word segmenter.  `numLocales` is the size of the hyphenator
vector, exactly as in the source. -/
def setLocales (isBogus : List ℕ → Bool) (locales : List ℕ)
    (numLocales : ℕ) : SetLocalesResult :=
  match setLocalesLoop isBogus numLocales 0 locales with
  | .inl p => ⟨some p.2, some p.1, some p.2⟩
  | .inr s =>
    if isBogus s then ⟨none, none, none⟩
    else ⟨some s, if numLocales = 0 then none else some (numLocales - 1), some s⟩

/-- Feed a list of candidates to the greedy breaker in order (the stream of
`addCandidate` calls issued by the candidate generator). -/
def addCandidates (cs : List Candidate) (st : LB) : LB :=
  cs.foldl (fun s c => addCandidate c s) st

/-- Sum of the positive `charWidth`s over positions `[i, i + n)`: the widths
the desperate-break loop accumulates (a zero or negative width is skipped
and accumulates nothing). -/
def posPartialSum (cw : ℕ → ℚ) : ℕ → ℕ → ℚ
  | _, 0 => 0
  | i, n + 1 => (if 0 < cw i then cw i else 0) + posPartialSum cw (i + 1) n

/-- Running width of the desperate-break loop at position `k`, following the
claim's words: the last candidate's `preBreak`, plus the `charWidth` at its
offset added unconditionally, plus every positive `charWidth` strictly
between. -/
def desperateWidthAt (cw : ℕ → ℚ) (base : ℚ) (start k : ℕ) : ℚ :=
  base + cw start + posPartialSum cw (start + 1) (k - (start + 1))

/-- The claim's description of the desperate candidates inserted by
`addWordBreak`: one candidate at every position in `(start, offset)` whose
`charWidth` is positive, with `preBreak = postBreak` equal to the running
width, equal space counts, penalty `SCORE_DESPERATE` and hyphen type
`BREAK_AND_DONT_INSERT_HYPHEN`. -/
def desperateSpec (cw : ℕ → ℚ) (cx : ℕ → MinikinExtent)
    (postSpaceCount : ℕ) (base : ℚ) (start offset : ℕ) : List Candidate :=
  ((idxRange (start + 1) (offset - (start + 1))).filter fun k => decide (0 < cw k)).map
    fun k =>
      ⟨k, desperateWidthAt cw base start k, desperateWidthAt cw base start k,
        postSpaceCount, postSpaceCount, cx k, SCORE_DESPERATE,
        .breakAndDontInsertHyphen, 0, 0⟩

/-- Reformulation of the desperate-break loop's emitted candidates as a
standalone recursion (bridge between `desperateLoop` and
`desperateSpec`). -/
def desperateCands (cw : ℕ → ℚ) (cx : ℕ → MinikinExtent) (psc : ℕ) :
    ℕ → ℕ → ℚ → List Candidate
  | 0, _, _ => []
  | n + 1, i, width =>
    if 0 < cw i then
      ⟨i, width, width, psc, psc, cx i, SCORE_DESPERATE,
        .breakAndDontInsertHyphen, 0, 0⟩ ::
        desperateCands cw cx psc n (i + 1) (width + cw i)
    else desperateCands cw cx psc n (i + 1) width

/-- The index among `r` whose candidate has minimal penalty, the last one
among ties (the claim's "the candidate with minimal penalty"). -/
def minPenaltyIdx (cands : List Candidate) (r : List ℕ) : Option ℕ :=
  r.foldl
    (fun acc i => match acc with
      | none => some i
      | some b => if (cands.getD i cand0).penalty ≤ (cands.getD b cand0).penalty
                  then some i else some b)
    none

/-- Running last-argmin over a list of candidate indices, seeded with a
current best index; the plain-ℕ core of `minPenaltyIdx`. -/
def minPenFrom (cands : List Candidate) (b : ℕ) (r : List ℕ) : ℕ :=
  r.foldl
    (fun a i => if (cands.getD i cand0).penalty ≤ (cands.getD a cand0).penalty
                then i else a) b

/-- The claim's description of one overflow-rescan iteration: the open range
`(lastBreak, candIndex)` is rescanned for the candidate with minimal penalty
and that one is committed, falling back to `candIndex` itself when none
improves on the sentinel score. -/
def addCandidateSpecLoop (candIndex : ℕ) (cand : Candidate) :
    ℕ → LB → LB
  | 0, st => st
  | fuel + 1, st =>
    if st.lastBreak ≠ candIndex ∧ cand.postBreak - st.preBreak > currentLineWidth st then
      let b := match minPenaltyIdx st.candidates
        (idxRange (st.lastBreak + 1) (candIndex - (st.lastBreak + 1))) with
        | some b =>
          if (st.candidates.getD b cand0).penalty ≤ st.bestScore then b else candIndex
        | none => candIndex
      addCandidateSpecLoop candIndex cand fuel
        (pushGreedyBreak { st with bestBreak := b })
    else st

/-- The claim's description of `addCandidate`: on overflow commit at the best
candidate seen since the last break (or at this candidate itself when none
improved), rescan while the remainder still overflows, then update the
running best. -/
def addCandidateSpec (cand : Candidate) (st : LB) : LB :=
  let candIndex := st.candidates.length
  let st1 := { st with candidates := st.candidates ++ [cand] }
  let st2 :=
    if cand.postBreak - st1.preBreak > currentLineWidth st1 then
      pushGreedyBreak (if st1.bestBreak = st1.lastBreak
        then { st1 with bestBreak := candIndex } else st1)
    else st1
  let st3 := addCandidateSpecLoop candIndex cand (candIndex + 1) st2
  if cand.penalty ≤ st3.bestScore
  then { st3 with bestBreak := candIndex, bestScore := cand.penalty } else st3

/-- Comma-separated rendering of a list of locale names (character-code
lists), the shape `setLocales` receives. -/
def joinComma : List (List ℕ) → List ℕ
  | [] => []
  | [n] => n
  | n :: m :: rest => n ++ 44 :: joinComma (m :: rest)

/-- The claim's "first valid locale of the comma-separated list": index of
the first name the locale oracle accepts. -/
def firstValidIdx (isBogus : List ℕ → Bool) : List (List ℕ) → Option ℕ
  | [] => none
  | n :: t => if isBogus n then (firstValidIdx isBogus t).map (· + 1) else some 0

/-- Concrete locale-validity oracle for witnesses: names starting with
character code 98 are bogus. -/
def bogusHead : List ℕ → Bool := fun s => s.headD 0 == 98

/-- The claim's explicit enumeration of the line-end-disappearing set:
`{U+000A, U+0020, U+1680, U+2000..U+200A except U+2007, U+205F, U+3000}`. -/
def lineEndSpaceChars : List ℕ :=
  [0x000A, 0x0020, 0x1680, 0x2000, 0x2001, 0x2002, 0x2003, 0x2004, 0x2005,
   0x2006, 0x2008, 0x2009, 0x200A, 0x205F, 0x3000]

/-- Candidate list exhibiting the pruning divergence: the final candidate is
overfull from every predecessor, and the active window has advanced past the
cheapest one (the sentinel). -/
def pruneCexCands : List Candidate :=
  [⟨0, 0, 0, 0, 0, extZero, 0, .dontBreak, 0, 0⟩,
   ⟨1, 5, 5, 0, 0, extZero, 1, .dontBreak, 0, 0⟩,
   ⟨2, 11, 11, 0, 0, extZero, 1, .dontBreak, 0, 0⟩,
   ⟨3, 100, 100, 0, 0, extZero, 1, .dontBreak, 0, 0⟩]

/-- Small in-window candidate list used to instantiate the pruning
equivalence: everything fits on a line of width 100. -/
def pruneFitCands : List Candidate :=
  [⟨0, 0, 0, 0, 0, extZero, 0, .dontBreak, 0, 0⟩,
   ⟨1, 3, 3, 0, 0, extZero, 1, .dontBreak, 0, 0⟩,
   ⟨2, 7, 7, 0, 0, extZero, 1, .dontBreak, 0, 0⟩]

/-- Two-line candidate list with `prev` links filled and distinct extents,
used to exhibit the missing ascent/descent reversal in
`finishBreaksOptimal`. -/
def ascRevCands : List Candidate :=
  [⟨0, 0, 0, 0, 0, extZero, 0, .dontBreak, 0, 0⟩,
   ⟨1, 10, 10, 0, 0, ⟨1, 5, 0⟩, 0, .dontBreak, 0, 0⟩,
   ⟨2, 20, 20, 0, 0, ⟨2, 6, 0⟩, 0, .dontBreak, 0, 1⟩]

/-- Engine state holding `ascRevCands`, about to run the optimal backtrace. -/
def ascRevState : LB :=
  { setTextState [] [] [] .highQuality false 0 (fun _ => 100) with
    candidates := ascRevCands }

/-- The pruned dynamic program run on the divergence candidates. -/
def pruneCexPruned : List Candidate :=
  optimalDP (fun _ => 10) false .highQuality 0 0 pruneCexCands

/-- The exhaustive dynamic program run on the divergence candidates. -/
def pruneCexExh : List Candidate :=
  exhaustiveDP (fun _ => 10) false .highQuality 0 0 pruneCexCands

/-- Word-space test used by the concrete paragraph runs: U+0020 only. -/
def asciiWS : ℕ → Bool := fun c => decide (c = 32)

/-- Empty paragraph prepared under the greedy strategy. -/
def emptyGreedyState : LB :=
  setTextState [] [] [] .greedy false 0 fun _ => 100

/-- Empty paragraph prepared under an optimal (high-quality) strategy. -/
def emptyOptimalState : LB :=
  setTextState [] [] [] .highQuality false 0 fun _ => 100

/-- A DP-filled candidate (offset 1, predecessor the sentinel). -/
def c3Cand1 : Candidate := ⟨1, 1, 1, 0, 0, extZero, 0, .dontBreak, 0, 0⟩

/-- A DP-filled candidate (offset 2, predecessor index 1). -/
def c3Cand2 : Candidate := ⟨2, 2, 2, 0, 0, extZero, 0, .dontBreak, 0, 1⟩

/-- Three-candidate state whose prev links descend and whose offsets
increase, the shape the optimal dynamic program produces. -/
def c3St : LB :=
  { emptyGreedyState with candidates := [cand0, c3Cand1, c3Cand2] }

/-- Two-code-unit state for the desperate-break witness. -/
def c5St : LB :=
  { emptyGreedyState with
    charWidths := [1, 1]
    lineWidthDelegate := some fun _ => 1 }

/-- Text of the tab-flag paragraph: `A`, space, `A`, tab, `A`. -/
def tabText : List ℕ := [65, 32, 65, 9, 65]

/-- Tab-flag paragraph state: widths 10 (0 for the tab), line width 15. -/
def tabState : LB :=
  setTextState tabText [10, 10, 10, 0, 10] (List.replicate 5 extZero)
    .highQuality false 0 fun _ => 15

/-- The tab-flag paragraph after its single style run (word-breaker
boundaries after the space and at the end) and `computeBreaks`. -/
def tabOut : LB :=
  computeBreaks asciiWS
    (addStyleRunNull asciiWS (fun _ => 40) 0 5 tabState [2, 5]).1

/-- Tab paragraph state after scanning code unit 0. -/
def tabSt1 : LB :=
  ⟨[65, 32, 65, 9, 65], [10, 10, 10, 0, 10], List.replicate 5 extZero,
   [⟨0, 0, 0, 0, 0, extZero, 0, .dontBreak, 0, 0⟩],
   [], [], [], [], [], 0, 0, SCORE_INFTY, 0, 0, 2147483647, 0, 10,
   .highQuality, .freqNormal, 0, false, some fun _ => 15, []⟩

/-- Tab paragraph state after scanning code unit 1 and the word boundary
at 2. -/
def tabSt2 : LB :=
  ⟨[65, 32, 65, 9, 65], [10, 10, 10, 0, 10], List.replicate 5 extZero,
   [⟨0, 0, 0, 0, 0, extZero, 0, .dontBreak, 0, 0⟩,
    ⟨2, 20, 10, 1, 0, extZero, 0, .dontBreak, 0, 0⟩],
   [], [], [], [], [], 0, 1, 0, 0, 0, 2147483647, 1, 20,
   .highQuality, .freqNormal, 0, false, some fun _ => 15, []⟩

/-- Tab paragraph state after scanning code unit 2. -/
def tabSt3 : LB :=
  ⟨[65, 32, 65, 9, 65], [10, 10, 10, 0, 10], List.replicate 5 extZero,
   [⟨0, 0, 0, 0, 0, extZero, 0, .dontBreak, 0, 0⟩,
    ⟨2, 20, 10, 1, 0, extZero, 0, .dontBreak, 0, 0⟩],
   [], [], [], [], [], 0, 1, 0, 0, 0, 2147483647, 1, 30,
   .highQuality, .freqNormal, 0, false, some fun _ => 15, []⟩

/-- Tab paragraph state after scanning the tab at code unit 3: width at the
tab stop, first tab index 3, strategy forced greedy. -/
def tabSt4 : LB :=
  ⟨[65, 32, 65, 9, 65], [10, 10, 10, 0, 10], List.replicate 5 extZero,
   [⟨0, 0, 0, 0, 0, extZero, 0, .dontBreak, 0, 0⟩,
    ⟨2, 20, 10, 1, 0, extZero, 0, .dontBreak, 0, 0⟩],
   [], [], [], [], [], 0, 1, 0, 0, 0, 3, 1, 40,
   .greedy, .freqNormal, 0, false, some fun _ => 15, []⟩

/-- Tab paragraph state after the whole style run: three breaks committed,
`mFirstTabIndex` back at `INT_MAX`, no tab bit set. -/
def tabStF : LB :=
  ⟨[65, 32, 65, 9, 65], [10, 10, 10, 0, 10], List.replicate 5 extZero,
   [⟨0, 0, 0, 0, 0, extZero, 0, .dontBreak, 0, 0⟩,
    ⟨2, 20, 10, 1, 0, extZero, 0, .dontBreak, 0, 0⟩,
    ⟨4, 30, 30, 1, 1, extZero, 10000000000, .breakAndDontInsertHyphen, 0, 0⟩,
    ⟨5, 50, 50, 1, 1, extZero, 0, .dontBreak, 0, 0⟩],
   [2, 4, 5], [10, 10, 20], [0, 0, 0], [0, 0, 0],
   [⟨false, 0⟩, ⟨false, 3⟩, ⟨false, 12⟩], 3, 3, 0, 50, 0, 2147483647, 1, 50,
   .greedy, .freqNormal, 0, false, some fun _ => 15, []⟩

/-! ### Theorems -/

theorem highQuality_ne_greedy :
    (BreakStrategy.highQuality = BreakStrategy.greedy) = False :=
  eq_false fun h => BreakStrategy.noConfusion h

/-- C10: `finish` not only clears the per-paragraph buffers (candidates,
breaks, widths, ascents, descents, flags, accumulated width) but also resets
the configuration to defaults: strategy Greedy, hyphenation frequency Normal,
justification off, line penalty 0, and the line-width delegate released. -/
theorem finish_clears_buffers_and_resets_config (st : LB) :
    (finish st).candidates = [] ∧ (finish st).breaks = [] ∧
    (finish st).widths = [] ∧ (finish st).ascents = [] ∧
    (finish st).descents = [] ∧ (finish st).flags = [] ∧
    (finish st).width = 0 ∧
    (finish st).strategy = .greedy ∧
    (finish st).hyphenationFrequency = .freqNormal ∧
    (finish st).linePenalty = 0 ∧
    (finish st).justified = false ∧
    (finish st).lineWidthDelegate = none := by
  unfold finish
  dsimp only
  split <;> simp

/-- C1 counterexample: on `pruneCexCands` with constant line width 10, the
pruned dynamic program gives candidate 3 score `1000000000027 = 10^12 + 27` with predecessor
1, while the exhaustive dynamic program gives score `1000000000001 = 10^12 + 1` with
predecessor 0, and the emitted break sequences differ (`[1, 3]` vs `[3]`). -/
theorem pruning_changes_score_prev_and_breaks :
    pruneCexPruned.map (fun c => (c.score, c.prev)) =
      [(0, 0), (26, 0), (43, 1), (1000000000027, 1)] ∧
    pruneCexExh.map (fun c => (c.score, c.prev)) =
      [(0, 0), (26, 0), (43, 1), (1000000000001, 0)] ∧
    (finishBreaksOptimal
        { emptyOptimalState with candidates := pruneCexPruned }).breaks = [1, 3] ∧
    (finishBreaksOptimal
        { emptyOptimalState with candidates := pruneCexExh }).breaks = [3] := by
  refine ⟨?_, ?_, ?_, ?_⟩ <;>
  norm_num [pruneCexPruned, pruneCexExh, pruneCexCands, optimalDP,
    optOuterStep, optBody, optWidthScore, exhaustiveDP, exhOuterStep, exhBody,
    idxRange, cand0, extZero, SCORE_INFTY, SCORE_OVERFULL,
    LAST_LINE_PENALTY_MULTIPLIER, SHRINK_PENALTY_MULTIPLIER,
    finishBreaksOptimal, backtrace, computeMaxExtent, emptyOptimalState,
    setTextState]

/-- C2 divergence: `finishBreaksOptimal` reverses breaks and widths into
first-line-first order but leaves ascents and descents in last-line-first
order: on a two-line backtrace the k-th ascent/descent belongs to the
(1-k)-th line. -/
theorem finishBreaksOptimal_ascents_not_reversed :
    (finishBreaksOptimal ascRevState).breaks = [1, 2] ∧
    (finishBreaksOptimal ascRevState).widths = [10, 10] ∧
    (finishBreaksOptimal ascRevState).ascents = [2, 1] ∧
    (finishBreaksOptimal ascRevState).descents = [6, 5] ∧
    (computeMaxExtent ascRevCands 1 1).ascent = 1 ∧
    (computeMaxExtent ascRevCands 2 2).ascent = 2 := by
  refine ⟨?_, ?_, ?_, ?_, ?_, ?_⟩ <;>
  norm_num [finishBreaksOptimal, backtrace, computeMaxExtent, idxRange,
    ascRevState, ascRevCands, setTextState, cand0, extZero,
    MinikinExtent.extendBy, editForThisLine, editForNextLine, Nat.lor]

/-- C3 counterexample: under the optimal strategy an empty paragraph (the
sentinel candidate only) produces no break at all, not one break at 0. -/
theorem optimal_empty_paragraph_no_break :
    (computeBreaks asciiWS emptyOptimalState).breaks = [] ∧
    (computeBreaks asciiWS emptyOptimalState).breaks ≠ [0] ∧
    (computeBreaks asciiWS emptyGreedyState).breaks = [0] ∧
    (computeBreaks asciiWS emptyGreedyState).widths = [0] := by
  have h : (computeBreaks asciiWS emptyOptimalState).breaks = [] := by
    norm_num [computeBreaks, computeBreaksOptimal, computeBreaksGreedy,
      finishBreaksOptimal, backtrace, optimalDP, idxRange, emptyOptimalState,
      setTextState, getSpaceWidth, SHRINKABILITY, computeMaxExtent, cand0,
      extZero, highQuality_ne_greedy]
  refine ⟨h, by simp [h], ?_, ?_⟩ <;>
  norm_num [computeBreaks, computeBreaksGreedy, pushBreak, computeMaxExtent,
    idxRange, emptyGreedyState, setTextState, cand0, extZero, INT_MAX]

set_option maxRecDepth 4000 in
theorem tabStage1 (fuel : ℕ) :
    styleRunLoop asciiWS (fun _ => 40) 5 (fuel + 1) 0 tabState
      ⟨extZero, 0, 0, 0⟩ [2, 5] =
    styleRunLoop asciiWS (fun _ => 40) 5 fuel 1 tabSt1
      ⟨extZero, 10, 0, 1⟩ [2, 5] := by
  rw [styleRunLoop]
  norm_num [styleRunCharStep, tabState, setTextState, tabSt1, asciiWS,
    isLineEndSpace, CHAR_TAB, INT_MAX, MinikinExtent.extendBy, extZero, tabText]

set_option maxRecDepth 4000 in
theorem tabStage2 (fuel : ℕ) :
    styleRunLoop asciiWS (fun _ => 40) 5 (fuel + 1) 1 tabSt1
      ⟨extZero, 10, 0, 1⟩ [2, 5] =
    styleRunLoop asciiWS (fun _ => 40) 5 fuel 2 tabSt2
      ⟨extZero, 10, 0, 1⟩ [5] := by
  rw [styleRunLoop]
  norm_num [styleRunCharStep, tabSt1, tabSt2, asciiWS, isLineEndSpace,
    CHAR_TAB, INT_MAX, MinikinExtent.extendBy, extZero, addWordBreak,
    addCandidate, addCandidateLoop, greedyRescan, currentLineWidth, cand0,
    SCORE_INFTY, idxRange, pushGreedyBreak, pushBreak, computeMaxExtent,
    editForThisLine, editForNextLine, Nat.lor]

set_option maxRecDepth 4000 in
theorem tabStage3 (fuel : ℕ) :
    styleRunLoop asciiWS (fun _ => 40) 5 (fuel + 1) 2 tabSt2
      ⟨extZero, 10, 0, 1⟩ [5] =
    styleRunLoop asciiWS (fun _ => 40) 5 fuel 3 tabSt3
      ⟨extZero, 30, 1, 3⟩ [5] := by
  rw [styleRunLoop]
  norm_num [styleRunCharStep, tabSt2, tabSt3, asciiWS, isLineEndSpace,
    CHAR_TAB, INT_MAX, MinikinExtent.extendBy, extZero]

set_option maxRecDepth 4000 in
theorem tabStage4 (fuel : ℕ) :
    styleRunLoop asciiWS (fun _ => 40) 5 (fuel + 1) 3 tabSt3
      ⟨extZero, 30, 1, 3⟩ [5] =
    styleRunLoop asciiWS (fun _ => 40) 5 fuel 4 tabSt4
      ⟨extZero, 30, 1, 3⟩ [5] := by
  rw [styleRunLoop]
  norm_num [styleRunCharStep, tabSt3, tabSt4, asciiWS, isLineEndSpace,
    CHAR_TAB, INT_MAX, MinikinExtent.extendBy, extZero]

set_option maxRecDepth 4000 in
theorem tabStage5 :
    styleRunLoop asciiWS (fun _ => 40) 5 (0 + 1) 4 tabSt4
      ⟨extZero, 30, 1, 3⟩ [5] =
    (tabStF, ⟨extZero, 50, 1, 5⟩, []) := by
  rw [styleRunLoop]
  norm_num [styleRunLoop, styleRunCharStep, addWordBreak, desperateLoop,
    addCandidate, addCandidateLoop, greedyRescan, pushGreedyBreak, pushBreak,
    computeMaxExtent, currentLineWidth, idxRange, cand0, extZero, tabSt4,
    tabStF, SCORE_INFTY, SCORE_DESPERATE, INT_MAX, CHAR_TAB, asciiWS,
    isLineEndSpace, MinikinExtent.extendBy, editForThisLine, editForNextLine,
    Nat.lor]

set_option maxRecDepth 4000 in
/-- C8 counterexample: in the tab paragraph the committed breaks are
`[2, 4, 5]` and the tab sits at index 3, inside `(breaks[0], breaks[1]]`,
yet no output flag has its tab bit set: the tab was scanned before the break
at 2 was committed, and the commit reset `mFirstTabIndex`. -/
theorem tab_flag_lost_by_lookahead :
    tabOut.breaks = [2, 4, 5] ∧
    tabText.getD 3 0 = 9 ∧
    (2 < 3 ∧ 3 ≤ 4) ∧
    tabOut.flags.map (fun f => f.tab) = [false, false, false] ∧
    tabOut.strategy = .greedy := by
  have e1 : tabOut = computeBreaks asciiWS
      (styleRunLoop asciiWS (fun _ => 40) 5 (4 + 1) 0 tabState
        ⟨extZero, 0, 0, 0⟩ [2, 5]).1 := by
    norm_num [tabOut, addStyleRunNull, tabState, setTextState]
  rw [e1, tabStage1, tabStage2, tabStage3, tabStage4, tabStage5]
  refine ⟨?_, rfl, ⟨by norm_num, by norm_num⟩, ?_, ?_⟩ <;>
  norm_num [computeBreaks, computeBreaksGreedy, tabStF, pushBreak,
    computeMaxExtent, idxRange, cand0, extZero]

/-- C6: the line-end-disappearing set is exactly
`{U+000A, U+0020, U+1680, U+2000..U+200A minus U+2007, U+205F, U+3000}`, and
in the per-code-unit iteration of `addStyleRun` every such code unit has its
`charWidth` added to the running width without advancing `postBreak`,
`postSpaceCount` or `afterWord`, while every other non-tab code unit advances
all three. -/
theorem lineEndSpace_set_and_step :
    (∀ c : ℕ, isLineEndSpace c = true ↔ c ∈ lineEndSpaceChars) ∧
    (∀ (isWS : ℕ → Bool) (nextTab : ℚ → ℚ) (i : ℕ) (st : LB) (loc : RunLocals),
      st.textBuf.getD i 0 ≠ CHAR_TAB →
      ((styleRunCharStep isWS nextTab i st loc).1.width =
          st.width + st.charWidths.getD i 0) ∧
      (isLineEndSpace (st.textBuf.getD i 0) = true →
        (styleRunCharStep isWS nextTab i st loc).2.postBreak = loc.postBreak ∧
        (styleRunCharStep isWS nextTab i st loc).2.postSpaceCount =
            loc.postSpaceCount ∧
        (styleRunCharStep isWS nextTab i st loc).2.afterWord = loc.afterWord) ∧
      (isLineEndSpace (st.textBuf.getD i 0) = false →
        (styleRunCharStep isWS nextTab i st loc).2.postBreak =
            st.width + st.charWidths.getD i 0 ∧
        (styleRunCharStep isWS nextTab i st loc).2.postSpaceCount =
            (if isWS (st.textBuf.getD i 0) then st.spaceCount + 1
             else st.spaceCount) ∧
        (styleRunCharStep isWS nextTab i st loc).2.afterWord = i + 1)) := by
  constructor
  · intro c
    simp only [isLineEndSpace, lineEndSpaceChars, decide_eq_true_eq,
      List.mem_cons, List.not_mem_nil, or_false]
    omega
  · intro isWS nextTab i st loc htab
    unfold styleRunCharStep
    rw [if_neg htab]
    rcases hc : isLineEndSpace (st.textBuf.getD i 0) with _ | _
    · simp [hc]
    · simp [hc]

/-- Witness for `lineEndSpace_set_and_step` at the ideographic space U+3000
and a concrete state. -/
theorem lineEndSpace_witness :
    isLineEndSpace 0x3000 = true ∧
    (styleRunCharStep (fun _ => false) (fun _ => 0) 0
      { emptyGreedyState with textBuf := [0x3000], charWidths := [7] }
      ⟨extZero, 0, 0, 0⟩).2.afterWord = 0 := by
  refine ⟨(lineEndSpace_set_and_step.1 0x3000).2 (by norm_num [lineEndSpaceChars]), ?_⟩
  exact ((lineEndSpace_set_and_step.2 (fun _ => false) (fun _ => 0) 0
    { emptyGreedyState with textBuf := [0x3000], charWidths := [7] }
    ⟨extZero, 0, 0, 0⟩ (by norm_num [CHAR_TAB])).2.1 (by norm_num [isLineEndSpace])).2.2

/-- C8 (amended): a tab sets the running width to
`preBreak + nextTab(width - preBreak)`, records the first tab index, forces
the greedy strategy and leaves the locals untouched; and each pushed break's
tab bit is set iff the first tab index recorded since the previous pushed
break lies before the new break offset, after which the index is reset. -/
theorem tab_step_and_flag_semantics :
    (∀ (isWS : ℕ → Bool) (nextTab : ℚ → ℚ) (i : ℕ) (st : LB) (loc : RunLocals),
      st.textBuf.getD i 0 = CHAR_TAB →
      (styleRunCharStep isWS nextTab i st loc).1.width =
          st.preBreak + nextTab (st.width - st.preBreak) ∧
      (styleRunCharStep isWS nextTab i st loc).1.firstTabIndex =
          (if st.firstTabIndex = INT_MAX then i else st.firstTabIndex) ∧
      (styleRunCharStep isWS nextTab i st loc).1.strategy = .greedy ∧
      (styleRunCharStep isWS nextTab i st loc).2 = loc) ∧
    (∀ (offset : ℕ) (width : ℚ) (extent : MinikinExtent) (hyphenEdit : ℕ)
        (st : LB),
      (pushBreak offset width extent hyphenEdit st).flags =
          st.flags ++ [⟨decide (st.firstTabIndex < offset), hyphenEdit⟩] ∧
      (pushBreak offset width extent hyphenEdit st).firstTabIndex = INT_MAX) := by
  constructor
  · intro isWS nextTab i st loc htab
    unfold styleRunCharStep
    rw [if_pos htab]
    exact ⟨rfl, rfl, rfl, rfl⟩
  · intro offset width extent hyphenEdit st
    exact ⟨rfl, rfl⟩

/-- Witness for `tab_step_and_flag_semantics` at a concrete tab. -/
theorem tab_step_witness :
    (styleRunCharStep (fun _ => false) (fun _ => 33) 0
      { emptyGreedyState with textBuf := [9] } ⟨extZero, 0, 0, 0⟩).1.width = 33 := by
  have h := (tab_step_and_flag_semantics.1 (fun _ => false) (fun _ => 33) 0
    { emptyGreedyState with textBuf := [9] } ⟨extZero, 0, 0, 0⟩
    (by norm_num [CHAR_TAB])).1
  rw [h]
  norm_num [emptyGreedyState, setTextState]

theorem takeToComma_append (n r : List ℕ) (hn : (44 : ℕ) ∉ n) :
    takeToComma (n ++ 44 :: r) = n := by
  induction n with
  | nil => simp [takeToComma]
  | cons c t ih =>
    have hc : c ≠ 44 := fun h => hn (by simp [h])
    have ht := ih fun h => hn (List.mem_cons_of_mem _ h)
    simp only [takeToComma] at ht ⊢
    simpa [hc] using ht

theorem takeToComma_self (n : List ℕ) (hn : (44 : ℕ) ∉ n) :
    takeToComma n = n := by
  induction n with
  | nil => rfl
  | cons c t ih =>
    have hc : c ≠ 44 := fun h => hn (by simp [h])
    have ht := ih fun h => hn (List.mem_cons_of_mem _ h)
    simp only [takeToComma] at ht ⊢
    simpa [hc] using ht

theorem dropPastComma_append (n r : List ℕ) (hn : (44 : ℕ) ∉ n) :
    dropPastComma (n ++ 44 :: r) = r := by
  induction n with
  | nil => simp [dropPastComma]
  | cons c t ih =>
    have hc : c ≠ 44 := fun h => hn (by simp [h])
    have ht := ih fun h => hn (List.mem_cons_of_mem _ h)
    simp only [dropPastComma] at ht ⊢
    simpa [hc] using ht

theorem getD_length_sub_one : ∀ (ns : List (List ℕ)), ns ≠ [] →
    ns.getD (ns.length - 1) [] = ns.getLastD []
  | [n], _ => rfl
  | n :: m :: ms, _ => by
    rw [List.getLastD_cons]
    have := getD_length_sub_one (m :: ms) (by simp)
    simpa using this

theorem setLocalesLoop_spec (isBogus : List ℕ → Bool) :
    ∀ (ns : List (List ℕ)) (i : ℕ), ns ≠ [] →
    (∀ n ∈ ns, (44 : ℕ) ∉ n) →
    setLocalesLoop isBogus (i + ns.length) i (joinComma ns) =
      match firstValidIdx isBogus (ns.take (ns.length - 1)) with
      | some k => Sum.inl (i + k, ns.getD k [])
      | none => Sum.inr (ns.getLastD [])
  | [n], i, _, _ => by
    rw [setLocalesLoop]
    simp [joinComma, firstValidIdx]
  | n :: m :: ms, i, _, hnc => by
    have hn : (44 : ℕ) ∉ n := hnc n (by simp)
    rw [setLocalesLoop]
    have hlt : i < i + (n :: m :: ms).length - 1 := by simp
    rw [dif_pos hlt]
    rw [show joinComma (n :: m :: ms) = n ++ 44 :: joinComma (m :: ms) from rfl]
    rw [takeToComma_append n _ hn, dropPastComma_append n _ hn]
    have htake : (n :: m :: ms).take ((n :: m :: ms).length - 1) =
        n :: (m :: ms).take ((m :: ms).length - 1) := by
      simp
    rw [htake]
    by_cases hb : isBogus n
    · simp only [hb, if_true]
      have harith : i + (n :: m :: ms).length = (i + 1) + (m :: ms).length := by
        simp; omega
      rw [harith,
        setLocalesLoop_spec isBogus (m :: ms) (i + 1) (by simp)
          fun x hx => hnc x (List.mem_cons_of_mem _ hx)]
      simp only [firstValidIdx, hb, if_true]
      cases hfv : firstValidIdx isBogus ((m :: ms).take ((m :: ms).length - 1)) with
      | none => simp [hfv, List.getLastD_cons]
      | some k =>
        have : i + 1 + k = i + (k + 1) := by omega
        simp [hfv, this]
    · simp [firstValidIdx, hb]
  termination_by ns _ => ns.length

theorem firstValidIdx_split (isBogus : List ℕ → Bool) :
    ∀ ns : List (List ℕ), ns ≠ [] →
    firstValidIdx isBogus ns =
      match firstValidIdx isBogus (ns.take (ns.length - 1)) with
      | some k => some k
      | none =>
        if isBogus (ns.getLastD []) then none else some (ns.length - 1)
  | [n], _ => by
    by_cases hb : isBogus n <;> simp [firstValidIdx, hb]
  | n :: m :: ms, _ => by
    have htake : (n :: m :: ms).take ((n :: m :: ms).length - 1) =
        n :: (m :: ms).take ((m :: ms).length - 1) := by simp
    rw [htake]
    by_cases hb : isBogus n
    · rw [show firstValidIdx isBogus (n :: m :: ms) =
          if isBogus n then (firstValidIdx isBogus (m :: ms)).map (· + 1)
          else some 0 from rfl,
        show firstValidIdx isBogus (n :: (m :: ms).take ((m :: ms).length - 1)) =
          if isBogus n then
            (firstValidIdx isBogus ((m :: ms).take ((m :: ms).length - 1))).map (· + 1)
          else some 0 from rfl,
        if_pos hb, if_pos hb,
        firstValidIdx_split isBogus (m :: ms) (by simp)]
      cases hfv : firstValidIdx isBogus ((m :: ms).take ((m :: ms).length - 1)) with
      | none =>
        by_cases hl : isBogus ((m :: ms).getLastD []) <;>
        · simp only [List.getLastD_eq_getLast?] at hl
          simp [hfv, List.getLastD_cons, hl]
      | some k => simp [hfv]
    · simp [firstValidIdx, hb]
  termination_by ns => ns.length

/-- C9: `setLocales` selects the first valid locale of the comma-separated
list and the hyphenator at its position, falling back to the root locale with
no hyphenator when none is valid; with zero hyphenators a single valid locale
still gets no hyphenator; and the word segmenter receives the chosen
locale. -/
theorem setLocales_selects_first_valid :
    (∀ (isBogus : List ℕ → Bool) (ns : List (List ℕ)), ns ≠ [] →
      (∀ n ∈ ns, (44 : ℕ) ∉ n) →
      setLocales isBogus (joinComma ns) ns.length =
        match firstValidIdx isBogus ns with
        | some k => ⟨some (ns.getD k []), some k, some (ns.getD k [])⟩
        | none => ⟨none, none, none⟩) ∧
    (∀ (isBogus : List ℕ → Bool) (name : List ℕ),
      setLocales isBogus name 0 =
        if isBogus name then ⟨none, none, none⟩
        else ⟨some name, none, some name⟩) := by
  constructor
  · intro isBogus ns hne hnc
    unfold setLocales
    have h0 : ns.length = 0 + ns.length := by omega
    rw [h0, setLocalesLoop_spec isBogus ns 0 hne hnc,
      firstValidIdx_split isBogus ns hne]
    cases hfv : firstValidIdx isBogus (ns.take (ns.length - 1)) with
    | some k => simp
    | none =>
      have hgd : ns[ns.length - 1]?.getD [] = ns.getLast?.getD [] := by
        have := getD_length_sub_one ns hne
        simpa [List.getLastD_eq_getLast?, List.getD_eq_getElem?_getD] using this
      by_cases hl : isBogus (ns.getLastD [])
      all_goals
        simp only [List.getLastD_eq_getLast?] at hl
      · simp [hl]
      · have hlen : ¬(0 + ns.length = 0) := by
          cases ns with
          | nil => exact absurd rfl hne
          | cons a t => simp
        simp [hl, hlen, hgd, hne]
  · intro isBogus name
    unfold setLocales
    rw [setLocalesLoop]
    simp

/-- Witness for `setLocales_selects_first_valid`: with names `[98]` (bogus)
then `[103]` (valid) and two hyphenators the second locale and hyphenator 1
are chosen; with a single valid locale and zero hyphenators none is. -/
theorem setLocales_witness :
    setLocales bogusHead (joinComma [[98], [103]]) 2 =
      ⟨some [103], some 1, some [103]⟩ ∧
    setLocales bogusHead [103] 0 = ⟨some [103], none, some [103]⟩ := by
  constructor
  · have h := setLocales_selects_first_valid.1 bogusHead [[98], [103]]
      (by simp) (by intro n hn; simp at hn; rcases hn with h | h <;> simp [h])
    exact h.trans (by norm_num [firstValidIdx, bogusHead])
  · have h := setLocales_selects_first_valid.2 bogusHead [103]
    exact h.trans (by norm_num [bogusHead])

theorem drop_getD_cons {str : List ℕ} {i : ℕ} (h : i < str.length) :
    str.drop i = str.getD i 0 :: str.drop (i + 1) := by
  rw [List.drop_eq_getElem_cons h, List.getD_eq_getElem?_getD,
    List.getElem?_eq_getElem h]
  rfl

theorem takeWhile_take_self {p : ℕ → Bool} (l : List ℕ) :
    l.take (l.takeWhile p).length = l.takeWhile p :=
  (List.prefix_iff_eq_take.mp (List.takeWhile_prefix p)).symm

theorem hyphenateSpec_cons_nbsp (hy : List ℕ → List HyphenationType)
    (rest : List ℕ) :
    hyphenateSpec hy (CHAR_NBSP :: rest) = .dontBreak :: hyphenateSpec hy rest := by
  rw [hyphenateSpec]
  simp

theorem hyphenateSpec_cons_word (hy : List ℕ → List HyphenationType)
    (c : ℕ) (rest : List ℕ) (hc : c ≠ CHAR_NBSP) :
    hyphenateSpec hy (c :: rest) =
      hyphenateWordSpec hy (c :: rest.takeWhile fun x => x ≠ CHAR_NBSP) ++
        hyphenateSpec hy (rest.dropWhile fun x => x ≠ CHAR_NBSP) := by
  rw [hyphenateSpec, dif_neg hc, List.takeWhile_cons, if_pos (by simpa using hc),
    List.dropWhile_cons, if_pos (by simpa using hc)]

theorem hyphenateLoop_spec (hy : List ℕ → List HyphenationType)
    (str : List ℕ) : ∀ fuel : ℕ,
    (∀ i ws, i ≤ str.length → str.length - i < fuel →
      hyphenateLoop hy str fuel i false ws = hyphenateSpec hy (str.drop i)) ∧
    (∀ i ws, ws ≤ i → i ≤ str.length → str.length - i < fuel →
      hyphenateLoop hy str fuel i true ws =
        hyphenateWordSpec hy ((str.drop ws).take
          ((i - ws) + ((str.drop i).takeWhile fun x => x ≠ CHAR_NBSP).length)) ++
        hyphenateSpec hy ((str.drop i).dropWhile fun x => x ≠ CHAR_NBSP)) := by
  intro fuel
  induction fuel with
  | zero =>
    exact ⟨fun i ws _ h => absurd h (by omega),
      fun i ws _ _ h => absurd h (by omega)⟩
  | succ fuel ih =>
    constructor
    · intro i ws hi hf
      rw [hyphenateLoop]
      by_cases hlt : i < str.length
      · have hdrop := drop_getD_cons hlt
        rw [if_pos hlt]
        by_cases hnb : str.getD i 0 = CHAR_NBSP
        · rw [if_pos hnb, ih.1 (i + 1) ws (by omega) (by omega), hdrop, hnb,
            hyphenateSpec_cons_nbsp]
          simp
        · rw [if_neg hnb, if_neg Bool.false_ne_true,
            ih.2 (i + 1) i (by omega) (by omega) (by omega)]
          have h1 : i + 1 - i = 1 := by omega
          rw [h1, hdrop, hyphenateSpec_cons_word hy _ _ hnb]
          have h2 : (str.getD i 0 :: str.drop (i + 1)).take
              (1 + ((str.drop (i + 1)).takeWhile fun x => x ≠ CHAR_NBSP).length) =
              str.getD i 0 :: (str.drop (i + 1)).takeWhile fun x => x ≠ CHAR_NBSP := by
            rw [Nat.add_comm, List.take_succ_cons, takeWhile_take_self]
          rw [h2]
      · have hieq : i = str.length := by omega
        rw [if_neg hlt, if_neg Bool.false_ne_true, hieq, List.drop_length,
          hyphenateSpec]
    · intro i ws hws hi hf
      rw [hyphenateLoop]
      have hwlen : ((str.drop ws).take (i - ws)).length = i - ws := by
        rw [List.length_take, List.length_drop]
        omega
      by_cases hlt : i < str.length
      · have hdrop := drop_getD_cons hlt
        rw [if_pos hlt]
        by_cases hnb : str.getD i 0 = CHAR_NBSP
        · rw [if_pos hnb, if_pos rfl, ih.1 (i + 1) ws (by omega) (by omega)]
          have htw0 : ((str.drop i).takeWhile fun x => x ≠ CHAR_NBSP) = [] := by
            rw [hdrop, List.takeWhile_cons, if_neg (by simpa using hnb)]
          have hdw0 : ((str.drop i).dropWhile fun x => x ≠ CHAR_NBSP) =
              str.drop i := by
            rw [hdrop, List.dropWhile_cons, if_neg (by simpa using hnb)]
          have hspec : hyphenateSpec hy (str.drop i) =
              .dontBreak :: hyphenateSpec hy (str.drop (i + 1)) := by
            rw [hdrop, hnb, hyphenateSpec_cons_nbsp]
          rw [htw0, hdw0, hspec]
          simp only [List.length_nil, Nat.add_zero]
          rw [hyphenateWordSpec, hwlen]
        · rw [if_neg hnb, if_pos rfl, ih.2 (i + 1) ws (by omega) (by omega) (by omega)]
          have htw : ((str.drop i).takeWhile fun x => x ≠ CHAR_NBSP) =
              str.getD i 0 :: ((str.drop (i + 1)).takeWhile fun x => x ≠ CHAR_NBSP) := by
            rw [hdrop, List.takeWhile_cons, if_pos (by simpa using hnb)]
          have hdw : ((str.drop i).dropWhile fun x => x ≠ CHAR_NBSP) =
              ((str.drop (i + 1)).dropWhile fun x => x ≠ CHAR_NBSP) := by
            rw [hdrop, List.dropWhile_cons, if_pos (by simpa using hnb)]
          rw [htw, hdw, List.length_cons]
          have harith : i - ws +
              (((str.drop (i + 1)).takeWhile fun x => x ≠ CHAR_NBSP).length + 1) =
              (i + 1 - ws) +
                ((str.drop (i + 1)).takeWhile fun x => x ≠ CHAR_NBSP).length := by
            omega
          rw [harith]
      · rw [if_neg hlt, if_pos rfl]
        have hieq : i = str.length := by omega
        have htw : ((str.drop i).takeWhile fun x => x ≠ CHAR_NBSP) = [] := by
          rw [hieq, List.drop_length]
          rfl
        have hdw : ((str.drop i).dropWhile fun x => x ≠ CHAR_NBSP) = [] := by
          rw [hieq, List.drop_length]
          rfl
        rw [htw, hdw, hyphenateSpec]
        simp only [List.length_nil, Nat.add_zero, List.append_nil]
        rw [hyphenateWordSpec, hwlen, hieq]

theorem hyphenateSpec_length (hy : List ℕ → List HyphenationType)
    (hc : ∀ w, (hy w).length = w.length) :
    ∀ (n : ℕ) (l : List ℕ), l.length ≤ n →
    (hyphenateSpec hy l).length = l.length := by
  intro n
  induction n with
  | zero =>
    intro l hl
    have : l = [] := List.length_eq_zero.mp (by omega)
    subst this
    rw [hyphenateSpec]
    rfl
  | succ n ih =>
    intro l hl
    match l with
    | [] =>
      rw [hyphenateSpec]
      rfl
    | c :: rest =>
      by_cases hnb : c = CHAR_NBSP
      · subst hnb
        rw [hyphenateSpec_cons_nbsp, List.length_cons, List.length_cons,
          ih rest (by simpa using hl)]
      · rw [hyphenateSpec_cons_word hy c rest hnb, List.length_append]
        have hword : (hyphenateWordSpec hy
            (c :: rest.takeWhile fun x => x ≠ CHAR_NBSP)).length =
            (c :: rest.takeWhile fun x => x ≠ CHAR_NBSP).length := by
          rw [hyphenateWordSpec]
          split
          · exact hc _
          · exact List.length_replicate _ _
        have hdwlen : (rest.dropWhile fun x => x ≠ CHAR_NBSP).length ≤ n := by
          have := (List.dropWhile_sublist
            (l := rest) (p := fun x => decide (x ≠ CHAR_NBSP))).length_le
          simp only [List.length_cons] at hl
          omega
        rw [hword, ih _ hdwlen]
        have hsplit := congrArg List.length
          (List.takeWhile_append_dropWhile (fun x => decide (x ≠ CHAR_NBSP)) rest)
        rw [List.length_append] at hsplit
        simp only [List.length_cons]
        omega

/-- C7: the hyphenation buffer builder partitions its input at non-breaking
spaces, classifies each maximal non-NBSP sub-word with the hyphenator when
its length is at most 45 and with `DONT_BREAK` entries otherwise, emits one
`DONT_BREAK` per NBSP in source order, and (under the hyphenator contract of
one entry per code unit) produces exactly `len` entries. -/
theorem hyphenate_partitions_at_nbsp (hy : List ℕ → List HyphenationType)
    (str : List ℕ) :
    hyphenate hy str = hyphenateSpec hy str ∧
    ((∀ w, (hy w).length = w.length) →
      (hyphenate hy str).length = str.length) := by
  have heq : hyphenate hy str = hyphenateSpec hy str := by
    rw [hyphenate,
      (hyphenateLoop_spec hy str (str.length + 1)).1 0 0 (by omega) (by omega),
      List.drop_zero]
  exact ⟨heq, fun hc => by
    rw [heq, hyphenateSpec_length hy hc str.length str le_rfl]⟩

/-- Witness for `hyphenate_partitions_at_nbsp` with the identity-length
hyphenator on the word `[1, NBSP, 2, 3]`. -/
theorem hyphenate_witness :
    (hyphenate (fun w => w.map fun _ => HyphenationType.breakAndInsertHyphen)
      [1, 160, 2, 3]).length = 4 :=
  (hyphenate_partitions_at_nbsp
      (fun w => w.map fun _ => HyphenationType.breakAndInsertHyphen)
      [1, 160, 2, 3]).2 (by intro w; simp)

theorem pushGreedyBreak_candidates (st : LB) :
    (pushGreedyBreak st).candidates = st.candidates := rfl

theorem pushGreedyBreak_charWidths (st : LB) :
    (pushGreedyBreak st).charWidths = st.charWidths := rfl

theorem pushGreedyBreak_charExtents (st : LB) :
    (pushGreedyBreak st).charExtents = st.charExtents := rfl

theorem addCandidateLoop_preserves (candIndex : ℕ) (cand : Candidate) :
    ∀ (fuel : ℕ) (st : LB),
    (addCandidateLoop candIndex cand fuel st).candidates = st.candidates ∧
    (addCandidateLoop candIndex cand fuel st).charWidths = st.charWidths ∧
    (addCandidateLoop candIndex cand fuel st).charExtents = st.charExtents := by
  intro fuel
  induction fuel with
  | zero => exact fun st => ⟨rfl, rfl, rfl⟩
  | succ fuel ih =>
    intro st
    rw [addCandidateLoop]
    split
    · refine ⟨?_, ?_, ?_⟩
      · rw [(ih _).1, pushGreedyBreak_candidates]
        split <;> rfl
      · rw [(ih _).2.1, pushGreedyBreak_charWidths]
        split <;> rfl
      · rw [(ih _).2.2, pushGreedyBreak_charExtents]
        split <;> rfl
    · exact ⟨rfl, rfl, rfl⟩

theorem addCandidateLoop_candidates (candIndex : ℕ) (cand : Candidate)
    (fuel : ℕ) (st : LB) :
    (addCandidateLoop candIndex cand fuel st).candidates = st.candidates :=
  (addCandidateLoop_preserves candIndex cand fuel st).1

theorem addCandidateLoop_charWidths (candIndex : ℕ) (cand : Candidate)
    (fuel : ℕ) (st : LB) :
    (addCandidateLoop candIndex cand fuel st).charWidths = st.charWidths :=
  (addCandidateLoop_preserves candIndex cand fuel st).2.1

theorem addCandidateLoop_charExtents (candIndex : ℕ) (cand : Candidate)
    (fuel : ℕ) (st : LB) :
    (addCandidateLoop candIndex cand fuel st).charExtents = st.charExtents :=
  (addCandidateLoop_preserves candIndex cand fuel st).2.2

theorem addCandidate_candidates (cand : Candidate) (st : LB) :
    (addCandidate cand st).candidates = st.candidates ++ [cand] ∧
    (addCandidate cand st).charWidths = st.charWidths ∧
    (addCandidate cand st).charExtents = st.charExtents := by
  unfold addCandidate
  refine ⟨?_, ?_, ?_⟩ <;>
  simp only [apply_ite LB.candidates, apply_ite LB.charWidths,
    apply_ite LB.charExtents, addCandidateLoop_candidates,
    addCandidateLoop_charWidths, addCandidateLoop_charExtents,
    pushGreedyBreak_candidates, pushGreedyBreak_charWidths,
    pushGreedyBreak_charExtents, ite_self]

theorem desperateLoop_candidates (psc : ℕ) :
    ∀ (n i : ℕ) (width : ℚ) (st : LB),
    (desperateLoop psc n i width st).candidates =
      st.candidates ++
        desperateCands (fun k => st.charWidths.getD k 0)
          (fun k => st.charExtents.getD k extZero) psc n i width ∧
    (desperateLoop psc n i width st).charWidths = st.charWidths ∧
    (desperateLoop psc n i width st).charExtents = st.charExtents := by
  intro n
  induction n with
  | zero => exact fun i width st => ⟨by simp [desperateLoop, desperateCands], rfl, rfl⟩
  | succ n ih =>
    intro i width st
    rw [desperateLoop, desperateCands]
    by_cases hw : 0 < st.charWidths.getD i 0
    · rw [if_pos hw, if_pos hw]
      set d : Candidate := ⟨i, width, width, psc, psc,
        st.charExtents.getD i extZero, SCORE_DESPERATE,
        .breakAndDontInsertHyphen, 0, 0⟩ with hd
      have hadd := addCandidate_candidates d st
      have hih := ih (i + 1) (width + st.charWidths.getD i 0) (addCandidate d st)
      refine ⟨?_, ?_, ?_⟩
      · rw [hih.1, hadd.1, hadd.2.1, hadd.2.2]
        simp
      · rw [hih.2.1, hadd.2.1]
      · rw [hih.2.2, hadd.2.2]
    · rw [if_neg hw, if_neg hw]
      exact ih (i + 1) width st

theorem desperateCands_eq_spec (cw : ℕ → ℚ) (cx : ℕ → MinikinExtent)
    (psc : ℕ) : ∀ (n i : ℕ) (width : ℚ),
    desperateCands cw cx psc n i width =
      ((idxRange i n).filter fun k => decide (0 < cw k)).map
        fun k => ⟨k, width + posPartialSum cw i (k - i),
          width + posPartialSum cw i (k - i), psc, psc, cx k,
          SCORE_DESPERATE, .breakAndDontInsertHyphen, 0, 0⟩ := by
  intro n
  induction n with
  | zero => intro i width; rfl
  | succ n ih =>
    intro i width
    rw [desperateCands, idxRange]
    by_cases hw : 0 < cw i
    · rw [if_pos hw]
      rw [List.filter_cons_of_pos (by simpa using hw), List.map_cons]
      rw [ih (i + 1) (width + cw i)]
      congr 1
      · simp [posPartialSum]
      · apply List.map_congr_left
        intro k hk
        have hge : i + 1 ≤ k := by
          have := (List.mem_filter.mp hk).1
          exact (mem_idxRange.mp this).1
        have harg : k - i = (k - (i + 1)) + 1 := by omega
        have hsum : posPartialSum cw i (k - i) =
            cw i + posPartialSum cw (i + 1) (k - (i + 1)) := by
          rw [harg, posPartialSum, if_pos hw]
        rw [hsum]
        have : width + (cw i + posPartialSum cw (i + 1) (k - (i + 1))) =
            width + cw i + posPartialSum cw (i + 1) (k - (i + 1)) := by ring
        rw [this]
    · rw [if_neg hw]
      rw [List.filter_cons_of_neg (by simpa using hw)]
      rw [ih (i + 1) width]
      apply List.map_congr_left
      intro k hk
      have hge : i + 1 ≤ k := by
        have := (List.mem_filter.mp hk).1
        exact (mem_idxRange.mp this).1
      have harg : k - i = (k - (i + 1)) + 1 := by omega
      have hsum : posPartialSum cw i (k - i) =
          0 + posPartialSum cw (i + 1) (k - (i + 1)) := by
        rw [harg, posPartialSum, if_neg hw]
      rw [hsum, zero_add]

/-- C5: when the prepared candidate overflows the current line from the last
candidate, `addWordBreak` inserts desperate candidates: the `charWidth` at
the last candidate's offset is charged unconditionally, then every position
in `(lastOffset, offset)` of positive `charWidth` emits a candidate whose
`preBreak` and `postBreak` both equal the running width there, with equal
space counts, penalty `SCORE_DESPERATE` and hyphen type
`BREAK_AND_DONT_INSERT_HYPHEN`; afterwards the prepared candidate itself is
appended. -/
theorem addWordBreak_inserts_desperate (offset : ℕ) (preBreak postBreak : ℚ)
    (preSpaceCount postSpaceCount : ℕ) (extent : MinikinExtent) (penalty : ℚ)
    (hyph : HyphenationType) (st : LB) :
    (addWordBreak offset preBreak postBreak preSpaceCount postSpaceCount
        extent penalty hyph st).candidates =
      st.candidates ++
        (if postBreak - (st.candidates.getD (st.candidates.length - 1)
              cand0).preBreak > currentLineWidth st then
          desperateSpec (fun k => st.charWidths.getD k 0)
            (fun k => st.charExtents.getD k extZero) postSpaceCount
            (st.candidates.getD (st.candidates.length - 1) cand0).preBreak
            (st.candidates.getD (st.candidates.length - 1) cand0).offset offset
         else []) ++
        [⟨offset, preBreak, postBreak, preSpaceCount, postSpaceCount, extent,
          penalty, hyph, 0, 0⟩] ∧
    (∀ c ∈ desperateSpec (fun k => st.charWidths.getD k 0)
        (fun k => st.charExtents.getD k extZero) postSpaceCount
        (st.candidates.getD (st.candidates.length - 1) cand0).preBreak
        (st.candidates.getD (st.candidates.length - 1) cand0).offset offset,
      c.preBreak = c.postBreak ∧ c.preSpaceCount = c.postSpaceCount ∧
      c.penalty = SCORE_DESPERATE ∧
      c.hyphenType = .breakAndDontInsertHyphen) := by
  constructor
  · unfold addWordBreak
    dsimp only
    split
    · set back := st.candidates.getD (st.candidates.length - 1) cand0 with hback
      have hdl := desperateLoop_candidates postSpaceCount
        (offset - (back.offset + 1)) (back.offset + 1)
        (back.preBreak + st.charWidths.getD back.offset 0) st
      have hadd := addCandidate_candidates
        ⟨offset, preBreak, postBreak, preSpaceCount, postSpaceCount, extent,
          penalty, hyph, 0, 0⟩
        (desperateLoop postSpaceCount (offset - (back.offset + 1))
          (back.offset + 1) (back.preBreak + st.charWidths.getD back.offset 0) st)
      rw [hadd.1, hdl.1,
        desperateCands_eq_spec (fun k => st.charWidths.getD k 0)
          (fun k => st.charExtents.getD k extZero) postSpaceCount
          (offset - (back.offset + 1)) (back.offset + 1)
          (back.preBreak + st.charWidths.getD back.offset 0)]
      rw [desperateSpec]
      simp only [desperateWidthAt, List.append_assoc]
    · have hadd := addCandidate_candidates
        ⟨offset, preBreak, postBreak, preSpaceCount, postSpaceCount, extent,
          penalty, hyph, 0, 0⟩ st
      rw [hadd.1]
      simp
  · intro c hc
    rw [desperateSpec] at hc
    obtain ⟨k, _, hk⟩ := List.mem_map.mp hc
    rw [← hk]
    exact ⟨rfl, rfl, rfl, rfl⟩

/-- Witness for `addWordBreak_inserts_desperate`: the concrete desperate
candidate of a two-code-unit overflow run has equal pre/post widths and
counts, penalty `SCORE_DESPERATE`, and the no-hyphen break type. -/
theorem addWordBreak_witness :
    (⟨1, 1, 1, 0, 0, extZero, SCORE_DESPERATE, .breakAndDontInsertHyphen, 0, 0⟩
        : Candidate).preBreak =
      (⟨1, 1, 1, 0, 0, extZero, SCORE_DESPERATE, .breakAndDontInsertHyphen,
        0, 0⟩ : Candidate).postBreak ∧
    (⟨1, 1, 1, 0, 0, extZero, SCORE_DESPERATE, .breakAndDontInsertHyphen, 0, 0⟩
        : Candidate).penalty = SCORE_DESPERATE := by
  have h := (addWordBreak_inserts_desperate 2 2 2 0 0 extZero 0 .dontBreak
      c5St).2
    ⟨1, 1, 1, 0, 0, extZero, SCORE_DESPERATE, .breakAndDontInsertHyphen, 0, 0⟩
    (by norm_num [desperateSpec, desperateWidthAt, posPartialSum, idxRange,
      c5St, emptyGreedyState, setTextState, cand0, extZero])
  exact ⟨h.1, h.2.2.1⟩

theorem minPenFrom_cons (cands : List Candidate) (b a : ℕ) (r : List ℕ) :
    minPenFrom cands b (a :: r) =
      minPenFrom cands
        (if (cands.getD a cand0).penalty ≤ (cands.getD b cand0).penalty
         then a else b) r := rfl

theorem minPenaltyIdx_cons (cands : List Candidate) (i : ℕ) (r : List ℕ) :
    minPenaltyIdx cands (i :: r) = some (minPenFrom cands i r) := by
  suffices h : ∀ (r : List ℕ) (b : ℕ),
      r.foldl (fun acc i => match acc with
        | none => some i
        | some b => if (cands.getD i cand0).penalty ≤ (cands.getD b cand0).penalty
                    then some i else some b) (some b) = some (minPenFrom cands b r) by
    exact h r i
  intro r
  induction r with
  | nil => intro b; rfl
  | cons a r ih =>
    intro b
    rw [List.foldl_cons, minPenFrom_cons]
    dsimp only
    split
    · exact ih a
    · exact ih b

theorem minPenFrom_mem (cands : List Candidate) : ∀ (r : List ℕ) (b : ℕ),
    minPenFrom cands b r ∈ b :: r := by
  intro r
  induction r with
  | nil => intro b; exact List.mem_singleton.mpr rfl
  | cons a r ih =>
    intro b
    rw [minPenFrom_cons]
    rcases List.mem_cons.mp
        (ih (if (cands.getD a cand0).penalty ≤ (cands.getD b cand0).penalty
             then a else b)) with h | h
    · rw [h]
      split
      · exact List.mem_cons_of_mem _ (List.mem_cons_self _ _)
      · exact List.mem_cons_self _ _
    · exact List.mem_cons_of_mem _ (List.mem_cons_of_mem _ h)

theorem minPenaltyIdx_mem (cands : List Candidate) (r : List ℕ) (m : ℕ)
    (h : minPenaltyIdx cands r = some m) : m ∈ r := by
  cases r with
  | nil => simp [minPenaltyIdx] at h
  | cons a r =>
    rw [minPenaltyIdx_cons] at h
    obtain rfl := Option.some.inj h
    exact minPenFrom_mem cands r a

theorem minPenFrom_min (cands : List Candidate) : ∀ (r : List ℕ) (b : ℕ),
    minPenFrom cands b r =
      match minPenaltyIdx cands r with
      | none => b
      | some m => if (cands.getD m cand0).penalty ≤ (cands.getD b cand0).penalty
                  then m else b := by
  intro r
  induction r with
  | nil => intro b; rfl
  | cons a r ih =>
    intro b
    rw [minPenFrom_cons, minPenaltyIdx_cons]
    dsimp only
    rw [ih (if (cands.getD a cand0).penalty ≤ (cands.getD b cand0).penalty
        then a else b), ih a]
    cases hmp : minPenaltyIdx cands r with
    | none => dsimp only
    | some m =>
      dsimp only
      split_ifs <;> first | rfl | linarith

theorem rescanFold_eq (cands : List Candidate) : ∀ (r : List ℕ) (b0 : ℕ) (s0 : ℚ),
    r.foldl (fun bb i => if (cands.getD i cand0).penalty ≤ bb.2
        then (i, (cands.getD i cand0).penalty) else bb) (b0, s0) =
      match minPenaltyIdx cands r with
      | none => (b0, s0)
      | some m => if (cands.getD m cand0).penalty ≤ s0
                  then (m, (cands.getD m cand0).penalty) else (b0, s0) := by
  intro r
  induction r with
  | nil => intro b0 s0; rfl
  | cons a r ih =>
    intro b0 s0
    rw [List.foldl_cons, minPenaltyIdx_cons]
    dsimp only
    by_cases hpa : (cands.getD a cand0).penalty ≤ s0
    · rw [if_pos hpa, ih, minPenFrom_min]
      cases hmp : minPenaltyIdx cands r with
      | none => dsimp only; rw [if_pos hpa]
      | some m =>
        dsimp only
        split_ifs <;> first | rfl | linarith
    · rw [if_neg hpa, ih, minPenFrom_min]
      cases hmp : minPenaltyIdx cands r with
      | none => dsimp only; rw [if_neg hpa]
      | some m =>
        dsimp only
        split_ifs <;> first | rfl | linarith

theorem greedyRescan_eq (cands : List Candidate) (lb ci b0 : ℕ) (s0 : ℚ) :
    greedyRescan cands lb ci b0 s0 =
      match minPenaltyIdx cands (idxRange (lb + 1) (ci - (lb + 1))) with
      | none => (b0, s0)
      | some m => if (cands.getD m cand0).penalty ≤ s0
                  then (m, (cands.getD m cand0).penalty) else (b0, s0) :=
  rescanFold_eq cands (idxRange (lb + 1) (ci - (lb + 1))) b0 s0

theorem pushGreedyBreak_lastBreak (st : LB) :
    (pushGreedyBreak st).lastBreak = st.bestBreak := rfl

theorem pushGreedyBreak_ignores_bestScore (st : LB) (x : ℕ) (y : ℚ) :
    pushGreedyBreak { st with bestBreak := x, bestScore := y } =
      pushGreedyBreak { st with bestBreak := x } := rfl

theorem addCandidateLoop_eq_spec (candIndex : ℕ) (cand : Candidate) (fuel : ℕ) :
    ∀ st : LB, st.bestBreak = st.lastBreak →
      addCandidateLoop candIndex cand fuel st =
        addCandidateSpecLoop candIndex cand fuel st := by
  induction fuel with
  | zero => intro st _; rfl
  | succ fuel ih =>
    intro st hb
    rw [addCandidateLoop, addCandidateSpecLoop]
    dsimp only
    split
    · rw [greedyRescan_eq, hb]
      cases hmp : minPenaltyIdx st.candidates
          (idxRange (st.lastBreak + 1) (candIndex - (st.lastBreak + 1))) with
      | none =>
        dsimp only
        rw [if_pos rfl]
        exact ih _ rfl
      | some m =>
        dsimp only
        by_cases hpm : (st.candidates.getD m cand0).penalty ≤ st.bestScore
        · simp only [if_pos hpm]
          have hmem := minPenaltyIdx_mem _ _ _ hmp
          have hlo := (mem_idxRange.mp hmem).1
          rw [if_neg (by omega : ¬ m = st.lastBreak)]
          rw [pushGreedyBreak_ignores_bestScore]
          exact ih _ rfl
        · simp only [if_neg hpm]
          rw [if_pos trivial]
          exact ih _ rfl
    · rfl

theorem addCandidateSpecLoop_exits (candIndex : ℕ) (cand : Candidate) (fuel : ℕ) :
    ∀ st : LB, st.lastBreak ≤ candIndex → candIndex - st.lastBreak < fuel →
      ((addCandidateSpecLoop candIndex cand fuel st).lastBreak = candIndex ∨
        ¬(cand.postBreak - (addCandidateSpecLoop candIndex cand fuel st).preBreak >
            currentLineWidth (addCandidateSpecLoop candIndex cand fuel st))) := by
  induction fuel with
  | zero => intro st h1 h2; omega
  | succ fuel ih =>
    intro st h1 h2
    rw [addCandidateSpecLoop]
    dsimp only
    by_cases hg : st.lastBreak ≠ candIndex ∧
        cand.postBreak - st.preBreak > currentLineWidth st
    · rw [if_pos hg]
      have hne := hg.1
      cases hmp : minPenaltyIdx st.candidates
          (idxRange (st.lastBreak + 1) (candIndex - (st.lastBreak + 1))) with
      | none =>
        dsimp only
        refine ih _ ?_ ?_
        · rw [pushGreedyBreak_lastBreak]
        · rw [pushGreedyBreak_lastBreak]
          show candIndex - candIndex < fuel
          omega
      | some m =>
        dsimp only
        have hmem := minPenaltyIdx_mem _ _ _ hmp
        have hlo := mem_idxRange.mp hmem
        split
        · refine ih _ ?_ ?_
          · rw [pushGreedyBreak_lastBreak]
            show m ≤ candIndex
            omega
          · rw [pushGreedyBreak_lastBreak]
            show candIndex - m < fuel
            omega
        · refine ih _ ?_ ?_
          · rw [pushGreedyBreak_lastBreak]
          · rw [pushGreedyBreak_lastBreak]
            show candIndex - candIndex < fuel
            omega
    · rw [if_neg hg]
      rcases not_and_or.mp hg with h | h
      · exact Or.inl (not_not.mp h)
      · exact Or.inr h

/-- C4: `addCandidate` implements the claim's greedy overflow handling: it
agrees with the step that, on overflow, commits at the best-penalty candidate
seen since the last break (falling back to the new candidate itself when none
improved), then repeatedly rescans the open range `(lastBreak, candIndex)` for
the minimal-penalty candidate while the remainder still overflows — again
falling back to `candIndex` itself — and finally updates the running best when
`cand.penalty ≤ bestScore`; moreover the rescan loop always exits, leaving
either a break at this candidate or a fitting remainder. -/
theorem addCandidate_commits_best_break (cand : Candidate) (st : LB)
    (hbb : st.bestBreak ≤ st.candidates.length) :
    addCandidate cand st = addCandidateSpec cand st ∧
    ((addCandidate cand st).lastBreak = st.candidates.length ∨
      ¬(cand.postBreak - (addCandidate cand st).preBreak >
          currentLineWidth (addCandidate cand st))) := by
  have heq : addCandidate cand st = addCandidateSpec cand st := by
    unfold addCandidate addCandidateSpec
    dsimp only
    by_cases hov : cand.postBreak - st.preBreak >
        currentLineWidth { st with candidates := st.candidates ++ [cand] }
    · simp only [if_pos hov]
      rw [addCandidateLoop_eq_spec (st.candidates.length) cand
        (st.candidates.length + 1)
        (pushGreedyBreak (if st.bestBreak = st.lastBreak
          then { st with candidates := st.candidates ++ [cand],
                         bestBreak := st.candidates.length }
          else { st with candidates := st.candidates ++ [cand] })) rfl]
    · simp only [if_neg hov]
      have hng : ¬(st.lastBreak ≠ st.candidates.length ∧
          cand.postBreak - st.preBreak >
            currentLineWidth { st with candidates := st.candidates ++ [cand] }) :=
        fun h => hov h.2
      rw [addCandidateLoop, addCandidateSpecLoop]
      dsimp only
      rw [if_neg hng, if_neg hng]
  refine ⟨heq, ?_⟩
  rw [heq]
  unfold addCandidateSpec
  dsimp only
  by_cases hov : cand.postBreak - st.preBreak >
      currentLineWidth { st with candidates := st.candidates ++ [cand] }
  · simp only [if_pos hov]
    by_cases hbl : st.bestBreak = st.lastBreak
    · simp only [if_pos hbl]
      have hex := addCandidateSpecLoop_exits (st.candidates.length) cand
        (st.candidates.length + 1)
        (pushGreedyBreak { st with candidates := st.candidates ++ [cand],
                                   bestBreak := st.candidates.length })
        (by rw [pushGreedyBreak_lastBreak]) (by omega)
      split
      · exact hex
      · exact hex
    · simp only [if_neg hbl]
      have hpl : (pushGreedyBreak
          { st with candidates := st.candidates ++ [cand] }).lastBreak ≤
            st.candidates.length := by
        rw [pushGreedyBreak_lastBreak]
        exact hbb
      have hex := addCandidateSpecLoop_exits (st.candidates.length) cand
        (st.candidates.length + 1)
        (pushGreedyBreak { st with candidates := st.candidates ++ [cand] })
        hpl (by omega)
      split
      · exact hex
      · exact hex
  · simp only [if_neg hov]
    have hng : ¬(st.lastBreak ≠ st.candidates.length ∧
        cand.postBreak - st.preBreak >
          currentLineWidth { st with candidates := st.candidates ++ [cand] }) :=
      fun h => hov h.2
    rw [addCandidateSpecLoop]
    dsimp only
    rw [if_neg hng]
    split
    · exact Or.inr hov
    · exact Or.inr hov

/-- Witness for `addCandidate_commits_best_break`: the fresh paragraph state
satisfies its index bounds, so the equivalence and the loop-exit property hold
concretely there. -/
theorem addCandidate_spec_witness :
    addCandidate cand0 emptyGreedyState = addCandidateSpec cand0 emptyGreedyState ∧
    ((addCandidate cand0 emptyGreedyState).lastBreak =
        emptyGreedyState.candidates.length ∨
      ¬(cand0.postBreak - (addCandidate cand0 emptyGreedyState).preBreak >
          currentLineWidth (addCandidate cand0 emptyGreedyState))) :=
  addCandidate_commits_best_break cand0 emptyGreedyState
    (by norm_num [emptyGreedyState, setTextState])

theorem backtrace_bounds (cands : List Candidate)
    (hprev : ∀ i, 0 < i → i < cands.length → (cands.getD i cand0).prev < i) :
    ∀ (fuel i : ℕ), i < cands.length →
      (∀ j ∈ backtrace cands fuel i, 0 < j ∧ j ≤ i) ∧
      List.Chain' (fun a b => b < a) (backtrace cands fuel i) := by
  intro fuel
  induction fuel with
  | zero =>
    intro i _
    exact ⟨fun j hj => absurd hj (List.not_mem_nil j), List.chain'_nil⟩
  | succ fuel ih =>
    intro i hi
    by_cases h0 : 0 < i
    · rw [backtrace, if_pos h0]
      have hp := hprev i h0 hi
      have hih := ih ((cands.getD i cand0).prev) (lt_trans hp hi)
      constructor
      · intro j hj
        rcases List.mem_cons.mp hj with rfl | hj
        · exact ⟨h0, le_refl _⟩
        · have hb := hih.1 j hj
          exact ⟨hb.1, by omega⟩
      · rw [List.chain'_cons']
        refine ⟨?_, hih.2⟩
        intro y hy
        have hb := hih.1 y (List.mem_of_mem_head? hy)
        omega
    · rw [backtrace, if_neg h0]
      exact ⟨fun j hj => absurd hj (List.not_mem_nil j), List.chain'_nil⟩

theorem backtrace_offsets_chain (cands : List Candidate)
    (hprev : ∀ i, 0 < i → i < cands.length → (cands.getD i cand0).prev < i)
    (hmono : ∀ i j, i < j → j < cands.length →
      (cands.getD i cand0).offset < (cands.getD j cand0).offset)
    (fuel i : ℕ) (hi : i < cands.length) :
    List.Chain' (fun a b =>
        (cands.getD b cand0).offset < (cands.getD a cand0).offset)
      (backtrace cands fuel i) := by
  have hb := backtrace_bounds cands hprev fuel i hi
  haveI : IsTrans ℕ (fun a b => b < a) := ⟨fun a b c h1 h2 => lt_trans h2 h1⟩
  have hpw : (backtrace cands fuel i).Pairwise (fun a b => b < a) :=
    List.chain'_iff_pairwise.mp hb.2
  refine List.Pairwise.chain' (hpw.imp_of_mem ?_)
  intro a b ha hbm hab
  have h1 := hb.1 a ha
  have h2 := hb.1 b hbm
  exact hmono b a hab (by omega)

theorem backtrace_head (cands : List Candidate) (fuel i : ℕ)
    (hf : 0 < fuel) (hi : 0 < i) :
    (backtrace cands fuel i).head? = some i := by
  cases fuel with
  | zero => omega
  | succ fuel =>
    rw [backtrace, if_pos hi]
    rfl

theorem pushGreedyBreak_breaks (st : LB) :
    (pushGreedyBreak st).breaks =
      st.breaks ++ [(st.candidates.getD st.bestBreak cand0).offset] := rfl

theorem pushGreedyBreak_bestBreak (st : LB) :
    (pushGreedyBreak st).bestBreak = st.bestBreak := rfl

theorem pushGreedyBreak_strategy (st : LB) :
    (pushGreedyBreak st).strategy = st.strategy := rfl

theorem pushGreedyBreak_commit_inv (st : LB)
    (hB : List.Chain' (fun a b => a < b) st.breaks)
    (hC : (st.breaks = [] ∧ st.lastBreak = 0) ∨
      (0 < st.lastBreak ∧ st.breaks.getLast? =
        some ((st.candidates.getD st.lastBreak cand0).offset)))
    (hlt : st.lastBreak < st.bestBreak)
    (hbb : st.bestBreak < st.candidates.length)
    (hF : ∀ i j, i < j → j < st.candidates.length →
      (st.candidates.getD i cand0).offset < (st.candidates.getD j cand0).offset) :
    List.Chain' (fun a b => a < b) (pushGreedyBreak st).breaks ∧
    (((pushGreedyBreak st).breaks = [] ∧ (pushGreedyBreak st).lastBreak = 0) ∨
      (0 < (pushGreedyBreak st).lastBreak ∧
        (pushGreedyBreak st).breaks.getLast? =
          some (((pushGreedyBreak st).candidates.getD
            (pushGreedyBreak st).lastBreak cand0).offset))) := by
  rw [pushGreedyBreak_breaks, pushGreedyBreak_lastBreak, pushGreedyBreak_candidates]
  constructor
  · rw [List.chain'_append]
    refine ⟨hB, List.chain'_singleton _, ?_⟩
    intro x hx y hy
    simp only [List.head?_cons, Option.mem_def, Option.some.injEq] at hy
    subst hy
    rcases hC with ⟨hnil, _⟩ | ⟨hpos, hlast⟩
    · rw [hnil] at hx
      simp at hx
    · rw [hlast] at hx
      simp only [Option.mem_def, Option.some.injEq] at hx
      subst hx
      exact hF st.lastBreak st.bestBreak hlt hbb
  · right
    rw [List.getLast?_concat]
    exact ⟨by omega, rfl⟩

theorem addCandidateSpecLoop_inv (candIndex : ℕ) (cand : Candidate) (fuel : ℕ) :
    ∀ st : LB, candIndex < st.candidates.length →
      st.lastBreak ≤ candIndex →
      st.bestBreak = st.lastBreak →
      List.Chain' (fun a b => a < b) st.breaks →
      ((st.breaks = [] ∧ st.lastBreak = 0) ∨
        (0 < st.lastBreak ∧ st.breaks.getLast? =
          some ((st.candidates.getD st.lastBreak cand0).offset))) →
      (∀ i j, i < j → j < st.candidates.length →
        (st.candidates.getD i cand0).offset < (st.candidates.getD j cand0).offset) →
      (addCandidateSpecLoop candIndex cand fuel st).candidates = st.candidates ∧
      (addCandidateSpecLoop candIndex cand fuel st).strategy = st.strategy ∧
      (addCandidateSpecLoop candIndex cand fuel st).lastBreak ≤ candIndex ∧
      (addCandidateSpecLoop candIndex cand fuel st).bestBreak =
        (addCandidateSpecLoop candIndex cand fuel st).lastBreak ∧
      List.Chain' (fun a b => a < b)
        (addCandidateSpecLoop candIndex cand fuel st).breaks ∧
      (((addCandidateSpecLoop candIndex cand fuel st).breaks = [] ∧
          (addCandidateSpecLoop candIndex cand fuel st).lastBreak = 0) ∨
        (0 < (addCandidateSpecLoop candIndex cand fuel st).lastBreak ∧
          (addCandidateSpecLoop candIndex cand fuel st).breaks.getLast? =
            some (((addCandidateSpecLoop candIndex cand fuel st).candidates.getD
              (addCandidateSpecLoop candIndex cand fuel st).lastBreak cand0).offset))) := by
  induction fuel with
  | zero =>
    intro st h1 h2 h3 hB hC hF
    exact ⟨rfl, rfl, h2, h3, hB, hC⟩
  | succ fuel ih =>
    intro st h1 h2 h3 hB hC hF
    rw [addCandidateSpecLoop]
    dsimp only
    by_cases hg : st.lastBreak ≠ candIndex ∧
        cand.postBreak - st.preBreak > currentLineWidth st
    · rw [if_pos hg]
      have hne := hg.1
      cases hmp : minPenaltyIdx st.candidates
          (idxRange (st.lastBreak + 1) (candIndex - (st.lastBreak + 1))) with
      | none =>
        dsimp only
        have hcm := pushGreedyBreak_commit_inv { st with bestBreak := candIndex }
          hB hC
          (by
            show st.lastBreak < candIndex
            omega)
          (by
            show candIndex < st.candidates.length
            exact h1)
          hF
        exact ih (pushGreedyBreak { st with bestBreak := candIndex }) h1
          (by
            show candIndex ≤ candIndex
            omega)
          rfl hcm.1 hcm.2 hF
      | some m =>
        dsimp only
        have hmem := minPenaltyIdx_mem _ _ _ hmp
        have hlo := mem_idxRange.mp hmem
        split
        · have hcm := pushGreedyBreak_commit_inv { st with bestBreak := m }
            hB hC
            (by
              show st.lastBreak < m
              omega)
            (by
              show m < st.candidates.length
              omega)
            hF
          exact ih (pushGreedyBreak { st with bestBreak := m }) h1
            (by
              show m ≤ candIndex
              omega)
            rfl hcm.1 hcm.2 hF
        · have hcm := pushGreedyBreak_commit_inv { st with bestBreak := candIndex }
            hB hC
            (by
              show st.lastBreak < candIndex
              omega)
            (by
              show candIndex < st.candidates.length
              exact h1)
            hF
          exact ih (pushGreedyBreak { st with bestBreak := candIndex }) h1
            (by
              show candIndex ≤ candIndex
              omega)
            rfl hcm.1 hcm.2 hF
    · rw [if_neg hg]
      exact ⟨rfl, rfl, h2, h3, hB, hC⟩

theorem offsets_mono_append (l : List Candidate) (c : Candidate)
    (hF : ∀ i j, i < j → j < l.length →
      (l.getD i cand0).offset < (l.getD j cand0).offset)
    (hc : (l.getD (l.length - 1) cand0).offset < c.offset)
    (h0 : 0 < l.length) :
    ∀ i j, i < j → j < (l ++ [c]).length →
      ((l ++ [c]).getD i cand0).offset < ((l ++ [c]).getD j cand0).offset := by
  intro i j hij hj
  rw [List.length_append, List.length_singleton] at hj
  by_cases hjl : j < l.length
  · rw [List.getD_append l [c] cand0 i (by omega),
      List.getD_append l [c] cand0 j hjl]
    exact hF i j hij hjl
  · have hje : j = l.length := by omega
    subst hje
    rw [List.getD_append l [c] cand0 i (by omega),
      List.getD_append_right l [c] cand0 l.length (le_refl _), Nat.sub_self]
    rcases Nat.lt_or_ge i (l.length - 1) with hi | hi
    · exact lt_trans (hF i (l.length - 1) hi (by omega)) hc
    · have hie : i = l.length - 1 := by omega
      subst hie
      exact hc

theorem getD_append_last (l : List Candidate) (c : Candidate) :
    (l ++ [c]).getD ((l ++ [c]).length - 1) cand0 = c := by
  rw [List.length_append, List.length_singleton, Nat.add_sub_cancel,
    List.getD_append_right l [c] cand0 l.length (le_refl _), Nat.sub_self]
  rfl

theorem cand_getD_last : ∀ (l : List Candidate), l ≠ [] →
    l.getD (l.length - 1) cand0 = l.getLastD cand0
  | [c], _ => rfl
  | c :: d :: ds, _ => by
    rw [List.getLastD_cons]
    have := cand_getD_last (d :: ds) (by simp)
    simpa using this

theorem addCandidate_greedy_inv (cand : Candidate) (st : LB)
    (hB : List.Chain' (fun a b => a < b) st.breaks)
    (hC : (st.breaks = [] ∧ st.lastBreak = 0) ∨
      (0 < st.lastBreak ∧ st.breaks.getLast? =
        some ((st.candidates.getD st.lastBreak cand0).offset)))
    (hD : st.lastBreak < st.candidates.length)
    (hE1 : st.lastBreak ≤ st.bestBreak)
    (hE2 : st.bestBreak < st.candidates.length)
    (hF : ∀ i j, i < j → j < st.candidates.length →
      (st.candidates.getD i cand0).offset < (st.candidates.getD j cand0).offset)
    (hcand : (st.candidates.getD (st.candidates.length - 1) cand0).offset <
      cand.offset) :
    (addCandidate cand st).candidates = st.candidates ++ [cand] ∧
    (addCandidate cand st).strategy = st.strategy ∧
    List.Chain' (fun a b => a < b) (addCandidate cand st).breaks ∧
    (((addCandidate cand st).breaks = [] ∧ (addCandidate cand st).lastBreak = 0) ∨
      (0 < (addCandidate cand st).lastBreak ∧
        (addCandidate cand st).breaks.getLast? =
          some (((addCandidate cand st).candidates.getD
            (addCandidate cand st).lastBreak cand0).offset))) ∧
    (addCandidate cand st).lastBreak < (addCandidate cand st).candidates.length ∧
    (addCandidate cand st).lastBreak ≤ (addCandidate cand st).bestBreak ∧
    (addCandidate cand st).bestBreak < (addCandidate cand st).candidates.length ∧
    (∀ i j, i < j → j < (addCandidate cand st).candidates.length →
      ((addCandidate cand st).candidates.getD i cand0).offset <
        ((addCandidate cand st).candidates.getD j cand0).offset) := by
  have hF1 := offsets_mono_append st.candidates cand hF hcand (by omega)
  have hC1 : (st.breaks = [] ∧ st.lastBreak = 0) ∨
      (0 < st.lastBreak ∧ st.breaks.getLast? =
        some (((st.candidates ++ [cand]).getD st.lastBreak cand0).offset)) := by
    rcases hC with h | ⟨h1, h2⟩
    · exact Or.inl h
    · refine Or.inr ⟨h1, ?_⟩
      rw [List.getD_append st.candidates [cand] cand0 st.lastBreak hD]
      exact h2
  unfold addCandidate
  dsimp only
  by_cases hov : cand.postBreak - st.preBreak >
      currentLineWidth { st with candidates := st.candidates ++ [cand] }
  · simp only [if_pos hov]
    rw [addCandidateLoop_eq_spec (st.candidates.length) cand
      (st.candidates.length + 1)
      (pushGreedyBreak (if st.bestBreak = st.lastBreak
        then { st with candidates := st.candidates ++ [cand],
                       bestBreak := st.candidates.length }
        else { st with candidates := st.candidates ++ [cand] })) rfl]
    by_cases hbl : st.bestBreak = st.lastBreak
    · simp only [if_pos hbl]
      have hcm := pushGreedyBreak_commit_inv
        { st with candidates := st.candidates ++ [cand],
                  bestBreak := st.candidates.length }
        hB hC1
        (by
          show st.lastBreak < st.candidates.length
          exact hD)
        (by
          show st.candidates.length < (st.candidates ++ [cand]).length
          rw [List.length_append, List.length_singleton]
          omega)
        hF1
      have hloop := addCandidateSpecLoop_inv (st.candidates.length) cand
        (st.candidates.length + 1)
        (pushGreedyBreak { st with candidates := st.candidates ++ [cand],
                                   bestBreak := st.candidates.length })
        (by
          show st.candidates.length < (st.candidates ++ [cand]).length
          rw [List.length_append, List.length_singleton]
          omega)
        (by
          show st.candidates.length ≤ st.candidates.length
          omega)
        rfl hcm.1 hcm.2 hF1
      split
      · refine ⟨hloop.1, hloop.2.1, hloop.2.2.2.2.1, hloop.2.2.2.2.2, ?_, ?_, ?_, ?_⟩
        · rw [hloop.1, pushGreedyBreak_candidates]
          dsimp only
          rw [List.length_append, List.length_singleton]
          have := hloop.2.2.1
          omega
        · exact hloop.2.2.1
        · rw [hloop.1, pushGreedyBreak_candidates]
          dsimp only
          rw [List.length_append, List.length_singleton]
          omega
        · intro i k hik hk
          rw [hloop.1, pushGreedyBreak_candidates] at hk ⊢
          dsimp only at hk ⊢
          exact hF1 i k hik hk
      · refine ⟨hloop.1, hloop.2.1, hloop.2.2.2.2.1, hloop.2.2.2.2.2, ?_, ?_, ?_, ?_⟩
        · rw [hloop.1, pushGreedyBreak_candidates]
          dsimp only
          rw [List.length_append, List.length_singleton]
          have := hloop.2.2.1
          omega
        · rw [hloop.2.2.2.1]
        · rw [hloop.2.2.2.1, hloop.1, pushGreedyBreak_candidates]
          dsimp only
          rw [List.length_append, List.length_singleton]
          have := hloop.2.2.1
          omega
        · intro i k hik hk
          rw [hloop.1, pushGreedyBreak_candidates] at hk ⊢
          dsimp only at hk ⊢
          exact hF1 i k hik hk
    · simp only [if_neg hbl]
      have hcm := pushGreedyBreak_commit_inv
        { st with candidates := st.candidates ++ [cand] }
        hB hC1
        (by
          show st.lastBreak < st.bestBreak
          omega)
        (by
          show st.bestBreak < (st.candidates ++ [cand]).length
          rw [List.length_append, List.length_singleton]
          omega)
        hF1
      have hloop := addCandidateSpecLoop_inv (st.candidates.length) cand
        (st.candidates.length + 1)
        (pushGreedyBreak { st with candidates := st.candidates ++ [cand] })
        (by
          show st.candidates.length < (st.candidates ++ [cand]).length
          rw [List.length_append, List.length_singleton]
          omega)
        (by
          show st.bestBreak ≤ st.candidates.length
          omega)
        rfl hcm.1 hcm.2 hF1
      split
      · refine ⟨hloop.1, hloop.2.1, hloop.2.2.2.2.1, hloop.2.2.2.2.2, ?_, ?_, ?_, ?_⟩
        · rw [hloop.1, pushGreedyBreak_candidates]
          dsimp only
          rw [List.length_append, List.length_singleton]
          have := hloop.2.2.1
          omega
        · exact hloop.2.2.1
        · rw [hloop.1, pushGreedyBreak_candidates]
          dsimp only
          rw [List.length_append, List.length_singleton]
          omega
        · intro i k hik hk
          rw [hloop.1, pushGreedyBreak_candidates] at hk ⊢
          dsimp only at hk ⊢
          exact hF1 i k hik hk
      · refine ⟨hloop.1, hloop.2.1, hloop.2.2.2.2.1, hloop.2.2.2.2.2, ?_, ?_, ?_, ?_⟩
        · rw [hloop.1, pushGreedyBreak_candidates]
          dsimp only
          rw [List.length_append, List.length_singleton]
          have := hloop.2.2.1
          omega
        · rw [hloop.2.2.2.1]
        · rw [hloop.2.2.2.1, hloop.1, pushGreedyBreak_candidates]
          dsimp only
          rw [List.length_append, List.length_singleton]
          have := hloop.2.2.1
          omega
        · intro i k hik hk
          rw [hloop.1, pushGreedyBreak_candidates] at hk ⊢
          dsimp only at hk ⊢
          exact hF1 i k hik hk
  · simp only [if_neg hov]
    have hng : ¬(st.lastBreak ≠ st.candidates.length ∧
        cand.postBreak - st.preBreak >
          currentLineWidth { st with candidates := st.candidates ++ [cand] }) :=
      fun h => hov h.2
    rw [addCandidateLoop]
    dsimp only
    rw [if_neg hng]
    split
    · refine ⟨rfl, rfl, hB, hC1, ?_, ?_, ?_, hF1⟩
      · show st.lastBreak < (st.candidates ++ [cand]).length
        rw [List.length_append, List.length_singleton]
        omega
      · show st.lastBreak ≤ st.candidates.length
        omega
      · show st.candidates.length < (st.candidates ++ [cand]).length
        rw [List.length_append, List.length_singleton]
        omega
    · refine ⟨rfl, rfl, hB, hC1, ?_, hE1, ?_, hF1⟩
      · show st.lastBreak < (st.candidates ++ [cand]).length
        rw [List.length_append, List.length_singleton]
        omega
      · show st.bestBreak < (st.candidates ++ [cand]).length
        rw [List.length_append, List.length_singleton]
        omega

theorem addCandidates_greedy_inv :
    ∀ (cs : List Candidate) (st : LB),
      List.Chain' (fun a b => a < b) st.breaks →
      ((st.breaks = [] ∧ st.lastBreak = 0) ∨
        (0 < st.lastBreak ∧ st.breaks.getLast? =
          some ((st.candidates.getD st.lastBreak cand0).offset))) →
      st.lastBreak < st.candidates.length →
      st.lastBreak ≤ st.bestBreak →
      st.bestBreak < st.candidates.length →
      (∀ i j, i < j → j < st.candidates.length →
        (st.candidates.getD i cand0).offset <
          (st.candidates.getD j cand0).offset) →
      List.Chain (fun a b => a < b)
        ((st.candidates.getD (st.candidates.length - 1) cand0).offset)
        (cs.map Candidate.offset) →
      (addCandidates cs st).candidates = st.candidates ++ cs ∧
      (addCandidates cs st).strategy = st.strategy ∧
      List.Chain' (fun a b => a < b) (addCandidates cs st).breaks ∧
      (((addCandidates cs st).breaks = [] ∧ (addCandidates cs st).lastBreak = 0) ∨
        (0 < (addCandidates cs st).lastBreak ∧
          (addCandidates cs st).breaks.getLast? =
            some (((addCandidates cs st).candidates.getD
              (addCandidates cs st).lastBreak cand0).offset))) ∧
      (addCandidates cs st).lastBreak < (addCandidates cs st).candidates.length ∧
      (addCandidates cs st).lastBreak ≤ (addCandidates cs st).bestBreak ∧
      (addCandidates cs st).bestBreak < (addCandidates cs st).candidates.length ∧
      (∀ i j, i < j → j < (addCandidates cs st).candidates.length →
        ((addCandidates cs st).candidates.getD i cand0).offset <
          ((addCandidates cs st).candidates.getD j cand0).offset) := by
  intro cs
  induction cs with
  | nil =>
    intro st hB hC hD hE1 hE2 hF _
    refine ⟨?_, rfl, hB, hC, hD, hE1, hE2, hF⟩
    rw [List.append_nil]
    rfl
  | cons c cs ih =>
    intro st hB hC hD hE1 hE2 hF hchain
    rw [List.map_cons, List.chain_cons] at hchain
    have hadd := addCandidate_greedy_inv c st hB hC hD hE1 hE2 hF hchain.1
    have hlast : ((addCandidate c st).candidates.getD
        ((addCandidate c st).candidates.length - 1) cand0).offset = c.offset := by
      rw [hadd.1, getD_append_last]
    have hrec := ih (addCandidate c st) hadd.2.2.1 hadd.2.2.2.1
      hadd.2.2.2.2.1 hadd.2.2.2.2.2.1 hadd.2.2.2.2.2.2.1 hadd.2.2.2.2.2.2.2
      (by
        rw [hlast]
        exact hchain.2)
    have heq : addCandidates (c :: cs) st = addCandidates cs (addCandidate c st) :=
      rfl
    rw [heq]
    refine ⟨?_, ?_, hrec.2.2.1, hrec.2.2.2.1, hrec.2.2.2.2.1,
      hrec.2.2.2.2.2.1, hrec.2.2.2.2.2.2.1, hrec.2.2.2.2.2.2.2⟩
    · rw [hrec.1, hadd.1, List.append_assoc]
      rfl
    · rw [hrec.2.1, hadd.2.1]

theorem computeBreaksGreedy_final_inv (st : LB)
    (hB : List.Chain' (fun a b => a < b) st.breaks)
    (hC : (st.breaks = [] ∧ st.lastBreak = 0) ∨
      (0 < st.lastBreak ∧ st.breaks.getLast? =
        some ((st.candidates.getD st.lastBreak cand0).offset)))
    (hD : st.lastBreak < st.candidates.length)
    (hF : ∀ i j, i < j → j < st.candidates.length →
      (st.candidates.getD i cand0).offset < (st.candidates.getD j cand0).offset) :
    List.Chain' (fun a b => a < b) (computeBreaksGreedy st).breaks ∧
    (computeBreaksGreedy st).breaks.getLast? =
      some ((st.candidates.getD (st.candidates.length - 1) cand0).offset) := by
  unfold computeBreaksGreedy
  dsimp only
  have hpb : ∀ (o : ℕ) (wd : ℚ) (ex : MinikinExtent) (he : ℕ),
      (pushBreak o wd ex he st).breaks = st.breaks ++ [o] := fun _ _ _ _ => rfl
  by_cases hcond : st.candidates.length = 1 ∨
      st.lastBreak ≠ st.candidates.length - 1
  · rw [if_pos hcond, hpb]
    constructor
    · rw [List.chain'_append]
      refine ⟨hB, List.chain'_singleton _, ?_⟩
      intro x hx y hy
      simp only [List.head?_cons, Option.mem_def, Option.some.injEq] at hy
      subst hy
      rcases hC with ⟨hnil, _⟩ | ⟨hpos, hlast⟩
      · rw [hnil] at hx
        simp at hx
      · rw [hlast] at hx
        simp only [Option.mem_def, Option.some.injEq] at hx
        subst hx
        rcases hcond with h1 | h1
        · exact absurd hpos (by omega)
        · exact hF st.lastBreak (st.candidates.length - 1) (by omega) (by omega)
    · rw [List.getLast?_concat]
  · rw [if_neg hcond]
    push_neg at hcond
    constructor
    · exact hB
    · rcases hC with ⟨hnil, h0⟩ | ⟨hpos, hlast⟩
      · exfalso
        omega
      · rw [hlast, hcond.2]

/-- C3 (amended): under the greedy strategy the whole breaks sequence is
strictly increasing and its last element is the offset of the final
candidate — the paragraph end `N`, since the generator's last word boundary
is the paragraph end — for every stream of candidates with strictly
increasing positive offsets fed to a fresh paragraph; the optimal finisher
likewise emits strictly increasing breaks ending at the last candidate's
offset whenever the DP-filled candidates have descending prev links and
increasing offsets.  For an empty paragraph (N = 0) the greedy strategy
yields exactly one break at offset 0 with width 0, but both optimal
strategies yield no break at all. -/
theorem computeBreaks_monotone_amended (isWS : ℕ → Bool) (st : LB)
    (hlen : 2 ≤ st.candidates.length)
    (hprev : ∀ i, 0 < i → i < st.candidates.length →
      (st.candidates.getD i cand0).prev < i)
    (hmono : ∀ i j, i < j → j < st.candidates.length →
      (st.candidates.getD i cand0).offset < (st.candidates.getD j cand0).offset) :
    List.Chain' (fun a b => a < b) (finishBreaksOptimal st).breaks ∧
    (finishBreaksOptimal st).breaks.getLast? =
      some ((st.candidates.getD (st.candidates.length - 1) cand0).offset) ∧
    (∀ (cs : List Candidate) (text : List ℕ) (cw : List ℚ)
        (cx : List MinikinExtent) (j : Bool) (lp : ℚ) (lw : ℕ → ℚ),
      List.Chain (fun a b => a < b) 0 (cs.map Candidate.offset) →
      List.Chain' (fun a b => a < b)
        (computeBreaks isWS
          (addCandidates cs (setTextState text cw cx .greedy j lp lw))).breaks ∧
      (computeBreaks isWS
          (addCandidates cs
            (setTextState text cw cx .greedy j lp lw))).breaks.getLast? =
        some (((cand0 :: cs).getLastD cand0).offset)) ∧
    (∀ (j : Bool) (lp : ℚ) (lw : ℕ → ℚ),
      (computeBreaks isWS (setTextState [] [] [] .greedy j lp lw)).breaks = [0] ∧
      (computeBreaks isWS (setTextState [] [] [] .greedy j lp lw)).widths = [0]) ∧
    (∀ (j : Bool) (lp : ℚ) (lw : ℕ → ℚ),
      (computeBreaks isWS (setTextState [] [] [] .highQuality j lp lw)).breaks = [] ∧
      (computeBreaks isWS (setTextState [] [] [] .balanced j lp lw)).breaks = []) := by
  refine ⟨?_, ?_, ?_, ?_, ?_⟩
  · unfold finishBreaksOptimal
    dsimp only
    rw [List.chain'_reverse, List.chain'_map]
    exact backtrace_offsets_chain st.candidates hprev hmono _ _ (by omega)
  · unfold finishBreaksOptimal
    dsimp only
    rw [List.getLast?_reverse, List.head?_map,
      backtrace_head st.candidates _ _ (by omega) (by omega)]
    rfl
  · intro cs text cw cx j lp lw hchain
    have hfold := addCandidates_greedy_inv cs
      (setTextState text cw cx .greedy j lp lw)
      List.chain'_nil (Or.inl ⟨rfl, rfl⟩) Nat.zero_lt_one (le_refl 0)
      Nat.zero_lt_one
      (by
        intro i k hik hk
        simp only [setTextState, List.length_cons, List.length_nil] at hk
        exfalso
        omega)
      hchain
    have hstrat : (addCandidates cs
        (setTextState text cw cx .greedy j lp lw)).strategy =
          BreakStrategy.greedy := hfold.2.1
    have hfin := computeBreaksGreedy_final_inv
      (addCandidates cs (setTextState text cw cx .greedy j lp lw))
      hfold.2.2.1 hfold.2.2.2.1 hfold.2.2.2.2.1 hfold.2.2.2.2.2.2.2
    constructor
    · unfold computeBreaks
      rw [if_pos hstrat]
      exact hfin.1
    · unfold computeBreaks
      rw [if_pos hstrat, hfin.2, hfold.1,
        cand_getD_last
          ((setTextState text cw cx .greedy j lp lw).candidates ++ cs)
          (by exact List.cons_ne_nil cand0 cs)]
      rfl
  · intro j lp lw
    constructor
    · rfl
    · norm_num [computeBreaks, computeBreaksGreedy, setTextState, pushBreak,
        cand0, computeMaxExtent, idxRange]
  · intro j lp lw
    constructor <;> rfl

/-- Witness for `computeBreaks_monotone_amended`: a concrete DP-shaped
candidate list with descending prev links and increasing offsets yields
strictly increasing breaks ending at the last offset, and feeding two
increasing-offset candidates to a fresh greedy paragraph yields strictly
increasing breaks ending at the last candidate's offset. -/
theorem c3_amended_witness :
    (List.Chain' (fun a b => a < b) (finishBreaksOptimal c3St).breaks ∧
      (finishBreaksOptimal c3St).breaks.getLast? =
        some ((c3St.candidates.getD (c3St.candidates.length - 1) cand0).offset)) ∧
    List.Chain' (fun a b => a < b)
      (computeBreaks (fun _ => false)
        (addCandidates [c3Cand1, c3Cand2]
          (setTextState [] [] [] .greedy false 0 fun _ => 100))).breaks ∧
    (computeBreaks (fun _ => false)
        (addCandidates [c3Cand1, c3Cand2]
          (setTextState [] [] [] .greedy false 0 fun _ => 100))).breaks.getLast? =
      some (((cand0 :: [c3Cand1, c3Cand2]).getLastD cand0).offset) := by
  have h := computeBreaks_monotone_amended (fun _ => false) c3St
    (by norm_num [c3St, emptyGreedyState, setTextState])
    (by
      intro i hi1 hi2
      simp only [c3St, emptyGreedyState, setTextState, List.length_cons,
        List.length_nil] at hi2
      interval_cases i <;>
        norm_num [c3St, emptyGreedyState, setTextState, c3Cand1, c3Cand2, cand0])
    (by
      intro i k hik hk
      simp only [c3St, emptyGreedyState, setTextState, List.length_cons,
        List.length_nil] at hk
      interval_cases k <;> interval_cases i <;>
        norm_num [c3St, emptyGreedyState, setTextState, c3Cand1, c3Cand2, cand0])
  have hchain : List.Chain (fun a b => a < b) 0
      ([c3Cand1, c3Cand2].map Candidate.offset) :=
    List.Chain.cons (by norm_num [c3Cand1])
      (List.Chain.cons (by norm_num [c3Cand1, c3Cand2]) List.Chain.nil)
  have hg := h.2.2.1 [c3Cand1, c3Cand2] [] [] [] false 0 (fun _ => 100) hchain
  exact ⟨⟨h.1, h.2.1⟩, hg.1, hg.2⟩

theorem optWidthScore_pos (ms : ℚ) (atEnd : Bool) (delta pj : ℚ) (a b : ℕ)
    (h : 0 < delta) :
    optWidthScore false .balanced ms atEnd delta pj a b = (delta * delta, 0) := by
  unfold optWidthScore
  have h1 : ¬((atEnd = true ∨ false = false) ∧ delta < 0) :=
    fun hc => absurd hc.2 (not_lt.mpr h.le)
  have h2 : ¬(atEnd = true ∧ BreakStrategy.balanced ≠ BreakStrategy.balanced) :=
    fun hc => hc.2 rfl
  rw [if_neg h1, if_neg h2, if_neg (not_lt.mpr h.le)]

theorem optBody_step_eq (w ms : ℚ) (cs : List Candidate) (ln : List ℕ)
    (atEnd : Bool) (postI : ℚ) (psI : ℕ) (sp se : OptInner) (j : ℕ)
    (hbest : sp.best = se.best) (hprev : sp.bestPrev = se.bestPrev)
    (hwp : sp.width = w) (hwe : se.width = w)
    (hle : sp.leftEdge = se.leftEdge)
    (hlnl : sp.lineNumberLast = se.lineNumberLast)
    (hdelta : 0 < (cs.getD j cand0).preBreak - sp.leftEdge)
    (hhope : sp.bestHope <
      ((cs.getD j cand0).preBreak - sp.leftEdge) *
        ((cs.getD j cand0).preBreak - sp.leftEdge)) :
    (optBody (fun _ => w) false .balanced ms cs ln atEnd postI psI sp j).best =
      (exhBody (fun _ => w) false .balanced ms cs ln atEnd postI psI se j).best ∧
    (optBody (fun _ => w) false .balanced ms cs ln atEnd postI psI sp j).bestPrev =
      (exhBody (fun _ => w) false .balanced ms cs ln atEnd postI psI se j).bestPrev ∧
    (optBody (fun _ => w) false .balanced ms cs ln atEnd postI psI sp j).active =
      sp.active ∧
    (optBody (fun _ => w) false .balanced ms cs ln atEnd postI psI sp j).width = w ∧
    (optBody (fun _ => w) false .balanced ms cs ln atEnd postI psI sp j).leftEdge =
      sp.leftEdge ∧
    (exhBody (fun _ => w) false .balanced ms cs ln atEnd postI psI se j).width = w ∧
    (exhBody (fun _ => w) false .balanced ms cs ln atEnd postI psI se j).leftEdge =
      se.leftEdge ∧
    (optBody (fun _ => w) false .balanced ms cs ln atEnd postI psI sp j).lineNumberLast =
      (exhBody (fun _ => w) false .balanced ms cs ln atEnd postI psI se j).lineNumberLast ∧
    ((optBody (fun _ => w) false .balanced ms cs ln atEnd postI psI sp j).bestHope =
        sp.bestHope ∨
      (optBody (fun _ => w) false .balanced ms cs ln atEnd postI psI sp j).bestHope =
        ((cs.getD j cand0).preBreak - sp.leftEdge) *
          ((cs.getD j cand0).preBreak - sp.leftEdge)) := by
  have hd' : 0 < (cs.getD j cand0).preBreak - se.leftEdge := hle ▸ hdelta
  unfold optBody exhBody
  dsimp only
  have hnip : ¬(w ≠ sp.width) := fun h => h hwp.symm
  have hnie : ¬(w ≠ se.width) := fun h => h hwe.symm
  rw [if_neg hnip, if_neg hnie]
  by_cases hln : ln.getD j 0 ≠ sp.lineNumberLast
  · rw [if_pos hln,
      if_pos (show ln.getD j 0 ≠ se.lineNumberLast from hlnl ▸ hln)]
    dsimp only
    by_cases hskip : (cs.getD j cand0).score + sp.bestHope ≥ sp.best
    · rw [if_pos hskip]
      rw [optWidthScore_pos ms atEnd _ _ _ _ hd',
        if_neg (not_lt.mpr hd'.le)]
      dsimp only
      have hnupd : ¬((cs.getD j cand0).score +
          ((cs.getD j cand0).preBreak - se.leftEdge) *
            ((cs.getD j cand0).preBreak - se.leftEdge) + 0 ≤ se.best) := by
        rw [← hle, ← hbest]
        intro hcon
        linarith
      rw [if_neg hnupd]
      exact ⟨hbest, hprev, rfl, hwp, rfl, hwe, rfl, rfl, Or.inl rfl⟩
    · rw [if_neg hskip, hle, hbest]
      rw [optWidthScore_pos ms atEnd _ _ _ _ hd']
      rw [if_neg (not_lt.mpr hd'.le), if_neg (not_lt.mpr hd'.le)]
      dsimp only
      split
      · exact ⟨rfl, rfl, rfl, hwp, rfl, hwe, rfl, rfl, Or.inr rfl⟩
      · exact ⟨rfl, hprev, rfl, hwp, rfl, hwe, rfl, rfl, Or.inr rfl⟩
  · rw [if_neg hln,
      if_neg (show ¬(ln.getD j 0 ≠ se.lineNumberLast) from hlnl ▸ hln)]
    by_cases hskip : (cs.getD j cand0).score + sp.bestHope ≥ sp.best
    · rw [if_pos hskip]
      rw [optWidthScore_pos ms atEnd _ _ _ _ hd',
        if_neg (not_lt.mpr hd'.le)]
      dsimp only
      have hnupd : ¬((cs.getD j cand0).score +
          ((cs.getD j cand0).preBreak - se.leftEdge) *
            ((cs.getD j cand0).preBreak - se.leftEdge) + 0 ≤ se.best) := by
        rw [← hle, ← hbest]
        intro hcon
        linarith
      rw [if_neg hnupd]
      exact ⟨hbest, hprev, rfl, hwp, rfl, hwe, rfl, hlnl, Or.inl rfl⟩
    · rw [if_neg hskip, hle, hbest]
      rw [optWidthScore_pos ms atEnd _ _ _ _ hd']
      rw [if_neg (not_lt.mpr hd'.le), if_neg (not_lt.mpr hd'.le)]
      dsimp only
      split
      · exact ⟨rfl, rfl, rfl, hwp, rfl, hwe, rfl, hlnl, Or.inr rfl⟩
      · exact ⟨rfl, hprev, rfl, hwp, rfl, hwe, rfl, hlnl, Or.inr rfl⟩

theorem optInner_fold_eq (w ms : ℚ) (cs : List Candidate) (ln : List ℕ)
    (atEnd : Bool) (i : ℕ) (postI : ℚ) (psI : ℕ) (s0 : OptInner) (le : ℚ)
    (hw0 : s0.width = w) (hh0 : s0.bestHope = 0) (hle0 : s0.leftEdge = le)
    (hd : ∀ j, j < i → 0 < (cs.getD j cand0).preBreak - le)
    (hm : ∀ j k, j < k → k < i →
      (cs.getD j cand0).preBreak < (cs.getD k cand0).preBreak) :
    ∀ n, n ≤ i →
      ((idxRange 0 n).foldl
          (optBody (fun _ => w) false .balanced ms cs ln atEnd postI psI) s0).best =
        ((idxRange 0 n).foldl
          (exhBody (fun _ => w) false .balanced ms cs ln atEnd postI psI) s0).best ∧
      ((idxRange 0 n).foldl
          (optBody (fun _ => w) false .balanced ms cs ln atEnd postI psI) s0).bestPrev =
        ((idxRange 0 n).foldl
          (exhBody (fun _ => w) false .balanced ms cs ln atEnd postI psI) s0).bestPrev ∧
      ((idxRange 0 n).foldl
          (optBody (fun _ => w) false .balanced ms cs ln atEnd postI psI) s0).active =
        s0.active ∧
      ((idxRange 0 n).foldl
          (optBody (fun _ => w) false .balanced ms cs ln atEnd postI psI) s0).width = w ∧
      ((idxRange 0 n).foldl
          (optBody (fun _ => w) false .balanced ms cs ln atEnd postI psI) s0).leftEdge =
        le ∧
      ((idxRange 0 n).foldl
          (exhBody (fun _ => w) false .balanced ms cs ln atEnd postI psI) s0).width = w ∧
      ((idxRange 0 n).foldl
          (exhBody (fun _ => w) false .balanced ms cs ln atEnd postI psI) s0).leftEdge =
        le ∧
      ((idxRange 0 n).foldl
          (optBody (fun _ => w) false .balanced ms cs ln atEnd postI psI) s0).lineNumberLast =
        ((idxRange 0 n).foldl
          (exhBody (fun _ => w) false .balanced ms cs ln atEnd postI psI) s0).lineNumberLast ∧
      (((idxRange 0 n).foldl
          (optBody (fun _ => w) false .balanced ms cs ln atEnd postI psI) s0).bestHope = 0 ∨
        ∃ k, k < n ∧
          ((idxRange 0 n).foldl
            (optBody (fun _ => w) false .balanced ms cs ln atEnd postI psI) s0).bestHope =
            ((cs.getD k cand0).preBreak - le) * ((cs.getD k cand0).preBreak - le)) := by
  intro n
  induction n with
  | zero =>
    intro _
    exact ⟨rfl, rfl, rfl, hw0, hle0, hw0, hle0, rfl, Or.inl hh0⟩
  | succ n ih =>
    intro hn
    have hsplit : idxRange 0 (n + 1) = idxRange 0 n ++ [n] := by
      rw [idxRange_append 0 n 1]
      simp [idxRange, Nat.zero_add]
    rw [hsplit, List.foldl_append, List.foldl_append, List.foldl_cons,
      List.foldl_cons, List.foldl_nil, List.foldl_nil]
    obtain ⟨hbest, hprev, hact, hwp, hlep, hwe, hlee, hlnl, hhope⟩ :=
      ih (by omega)
    have hnlt : n < i := by omega
    have hdj : 0 < (cs.getD n cand0).preBreak -
        ((idxRange 0 n).foldl
          (optBody (fun _ => w) false .balanced ms cs ln atEnd postI psI) s0).leftEdge := by
      rw [hlep]
      exact hd n hnlt
    have hhopej : ((idxRange 0 n).foldl
        (optBody (fun _ => w) false .balanced ms cs ln atEnd postI psI) s0).bestHope <
        ((cs.getD n cand0).preBreak -
          ((idxRange 0 n).foldl
            (optBody (fun _ => w) false .balanced ms cs ln atEnd postI psI) s0).leftEdge) *
        ((cs.getD n cand0).preBreak -
          ((idxRange 0 n).foldl
            (optBody (fun _ => w) false .balanced ms cs ln atEnd postI psI) s0).leftEdge) := by
      rw [hlep]
      rcases hhope with h0 | ⟨k, hk, hkeq⟩
      · rw [h0]
        exact mul_pos (hd n hnlt) (hd n hnlt)
      · rw [hkeq]
        have h1 := hd k (by omega)
        have h2 := hd n hnlt
        have h3 := hm k n hk hnlt
        nlinarith
    have hstep := optBody_step_eq w ms cs ln atEnd postI psI
      ((idxRange 0 n).foldl
        (optBody (fun _ => w) false .balanced ms cs ln atEnd postI psI) s0)
      ((idxRange 0 n).foldl
        (exhBody (fun _ => w) false .balanced ms cs ln atEnd postI psI) s0)
      n hbest hprev hwp hwe (hlep.trans hlee.symm) hlnl hdj hhopej
    obtain ⟨sa, sb, sc, sd, se', sf, sg, sh, si⟩ := hstep
    refine ⟨sa, sb, sc.trans hact, sd, se'.trans hlep, sf, sg.trans hlee, sh, ?_⟩
    rcases si with h1 | h1
    · rcases hhope with h0 | ⟨k, hk, hkeq⟩
      · exact Or.inl (h1.trans h0)
      · exact Or.inr ⟨k, by omega, h1.trans hkeq⟩
    · refine Or.inr ⟨n, by omega, ?_⟩
      rw [h1, hlep]

theorem getD_set_pre_post (l : List Candidate) (idx : ℕ) (sc : ℚ) (pv : ℕ)
    (k : ℕ) :
    ((l.set idx
        { l.getD idx cand0 with score := sc, prev := pv }).getD k cand0).preBreak =
      (l.getD k cand0).preBreak ∧
    ((l.set idx
        { l.getD idx cand0 with score := sc, prev := pv }).getD k cand0).postBreak =
      (l.getD k cand0).postBreak := by
  rw [List.getD_eq_getElem?_getD, List.getElem?_set]
  by_cases hik : idx = k
  · subst hik
    by_cases hl : idx < l.length
    · rw [if_pos rfl, if_pos hl]
      exact ⟨rfl, rfl⟩
    · rw [if_pos rfl, if_neg hl]
      constructor <;>
        rw [List.getD_eq_getElem?_getD, List.getElem?_eq_none (le_of_not_lt hl)]
  · rw [if_neg hik, ← List.getD_eq_getElem?_getD]
    exact ⟨rfl, rfl⟩

theorem optOuter_fold_eq (w ms lp : ℚ) (cands : List Candidate)
    (hfits : ∀ j i, j < i → i < cands.length →
      (cands.getD i cand0).postBreak - (cands.getD j cand0).preBreak < w)
    (hpre : ∀ i j, i < j → j < cands.length →
      (cands.getD i cand0).preBreak < (cands.getD j cand0).preBreak) :
    ∀ m, m ≤ cands.length - 1 →
      ((idxRange 1 m).foldl
          (optOuterStep (fun _ => w) false .balanced ms lp cands.length)
          (cands, [0], 0)).1 =
        ((idxRange 1 m).foldl
          (exhOuterStep (fun _ => w) false .balanced ms lp cands.length)
          (cands, [0])).1 ∧
      ((idxRange 1 m).foldl
          (optOuterStep (fun _ => w) false .balanced ms lp cands.length)
          (cands, [0], 0)).2.1 =
        ((idxRange 1 m).foldl
          (exhOuterStep (fun _ => w) false .balanced ms lp cands.length)
          (cands, [0])).2 ∧
      ((idxRange 1 m).foldl
          (optOuterStep (fun _ => w) false .balanced ms lp cands.length)
          (cands, [0], 0)).2.2 = 0 ∧
      ((idxRange 1 m).foldl
          (optOuterStep (fun _ => w) false .balanced ms lp cands.length)
          (cands, [0], 0)).1.length = cands.length ∧
      (∀ k, (((idxRange 1 m).foldl
          (optOuterStep (fun _ => w) false .balanced ms lp cands.length)
          (cands, [0], 0)).1.getD k cand0).preBreak =
        (cands.getD k cand0).preBreak) ∧
      (∀ k, (((idxRange 1 m).foldl
          (optOuterStep (fun _ => w) false .balanced ms lp cands.length)
          (cands, [0], 0)).1.getD k cand0).postBreak =
        (cands.getD k cand0).postBreak) := by
  intro m
  induction m with
  | zero =>
    intro _
    exact ⟨rfl, rfl, rfl, rfl, fun k => rfl, fun k => rfl⟩
  | succ m ih =>
    intro hm
    obtain ⟨hc, hln, hact, hlen, hpreP, hpostP⟩ := ih (by omega)
    have hsplit : idxRange 1 (m + 1) = idxRange 1 m ++ [1 + m] :=
      idxRange_append 1 m 1
    have hilt : 1 + m < cands.length := by omega
    rw [hsplit, List.foldl_append, List.foldl_append, List.foldl_cons,
      List.foldl_cons, List.foldl_nil, List.foldl_nil]
    set Ap := (idxRange 1 m).foldl
      (optOuterStep (fun _ => w) false .balanced ms lp cands.length)
      (cands, [0], 0) with hAp
    set Ae := (idxRange 1 m).foldl
      (exhOuterStep (fun _ => w) false .balanced ms lp cands.length)
      (cands, [0]) with hAe
    unfold optOuterStep exhOuterStep
    dsimp only
    rw [hc, hln, hact, Nat.sub_zero]
    have hin := optInner_fold_eq w ms Ae.1 Ae.2
      (decide (1 + m = cands.length - 1)) (1 + m)
      ((Ae.1.getD (1 + m) cand0).postBreak)
      ((Ae.1.getD (1 + m) cand0).postSpaceCount)
      ⟨SCORE_INFTY, 0, 0, 0, w, Ae.2.getD 0 0,
        (Ae.1.getD (1 + m) cand0).postBreak - w⟩
      ((Ae.1.getD (1 + m) cand0).postBreak - w)
      rfl rfl rfl
      (by
        intro j hj
        rw [← hc, hpreP j, hpostP (1 + m)]
        have := hfits j (1 + m) hj hilt
        linarith)
      (by
        intro j k hjk hk
        rw [← hc, hpreP j, hpreP k]
        exact hpre j k hjk (by omega))
      (1 + m) (le_refl _)
    obtain ⟨hbest, hprev, hactI, _, _, _, _, _, _⟩ := hin
    refine ⟨?_, ?_, ?_, ?_, ?_, ?_⟩
    · rw [hbest, hprev]
    · rw [hprev]
    · exact hactI
    · rw [List.length_set, ← hc]
      exact hlen
    · intro k
      rw [(getD_set_pre_post Ae.1 (1 + m) _ _ k).1, ← hc, hpreP k]
    · intro k
      rw [(getD_set_pre_post Ae.1 (1 + m) _ _ k).2, ← hc, hpostP k]

/-- C1 (amended): the active-window and `bestHope` pruning of the optimal
dynamic program does not change any score or prev link — and hence the
emitted break, width and flag sequences — under the conditions the pruning
was designed for: a constant line width, an unjustified balanced paragraph,
strictly increasing `preBreak` values, and every candidate line strictly
fitting (`postBreak i - preBreak j < width` for `j < i`).  Outside these
conditions the pruning can change the result (for example when every
predecessor of a candidate is overfull). -/
theorem pruning_equivalent_when_fitting (w ms lp : ℚ) (cands : List Candidate)
    (hfits : ∀ j i, j < i → i < cands.length →
      (cands.getD i cand0).postBreak - (cands.getD j cand0).preBreak < w)
    (hpre : ∀ i j, i < j → j < cands.length →
      (cands.getD i cand0).preBreak < (cands.getD j cand0).preBreak) :
    optimalDP (fun _ => w) false .balanced ms lp cands =
      exhaustiveDP (fun _ => w) false .balanced ms lp cands ∧
    ∀ st : LB,
      finishBreaksOptimal
          { st with candidates := optimalDP (fun _ => w) false .balanced ms lp cands } =
        finishBreaksOptimal
          { st with candidates := exhaustiveDP (fun _ => w) false .balanced ms lp cands } := by
  have h := optOuter_fold_eq w ms lp cands hfits hpre
    (cands.length - 1) (le_refl _)
  have heq : optimalDP (fun _ => w) false .balanced ms lp cands =
      exhaustiveDP (fun _ => w) false .balanced ms lp cands := by
    unfold optimalDP exhaustiveDP
    dsimp only
    exact h.1
  exact ⟨heq, fun st => by rw [heq]⟩

/-- Witness for `pruning_equivalent_when_fitting`: on the three-candidate
in-window list everything fits on a line of width 100, and the pruned and
exhaustive dynamic programs agree. -/
theorem pruning_equivalence_witness :
    optimalDP (fun _ => 100) false .balanced 0 0 pruneFitCands =
      exhaustiveDP (fun _ => 100) false .balanced 0 0 pruneFitCands :=
  (pruning_equivalent_when_fitting 100 0 0 pruneFitCands
    (by
      intro j i hj hi
      simp only [pruneFitCands, List.length_cons, List.length_nil] at hi
      interval_cases i <;> interval_cases j <;>
        norm_num [pruneFitCands, extZero])
    (by
      intro i j hij hj
      simp only [pruneFitCands, List.length_cons, List.length_nil] at hj
      interval_cases j <;> interval_cases i <;>
        norm_num [pruneFitCands, extZero])).1

end Minikin
